import Mathlib

/-!
Watcher: the change detection core.

A shallow embedding of the directory monitor (`monitor.go`) and of the change
handler (`handler.go`) of the `watcher` program, with the properties of the
polling cycle, of the include and exclude filters and of the recursive walk.

Strings are sequences of Unicode code points (the Go strings the program
handles are taken to be valid UTF-8); `filepath.Match`, which works on bytes,
is given their UTF-8 bytes.  The standard library functions the program calls
(`strings.Split`, `filepath.Base`, `filepath.Join`, `filepath.Match`,
`filepath.Walk`) are embedded from their Go sources for Unix, where the path
separator is `/` and a volume name is empty.

The file system is a finite tree that does not change while one walk runs:
`Lstat` succeeds on every listed entry and every directory can be read, while
`os.Open` on an entry succeeds, does not find it (a link whose target is
missing) or is denied.  `filepath.Walk` calls the walk function on a directory
before it walks the entries in the order of their names, skips a directory
for which the function returns `SkipDir`, ends the walk of the containing
directory when the function returns `SkipDir` for a non-directory, and returns
nil when the walk ends on `SkipDir`.

Channel sends are recorded as the list of the values sent, in order.  Next to
the cache and the messages, an outcome records the paths on which the walk
function was called; the program keeps no such record, it serves to state
which files a walk visits.
-/

namespace Watcher

/-! ## Library functions on strings -/

/-- The pieces of `s` between occurrences of the one-character separator, as
`strings.Split` returns them: the empty string has the single piece `""`. -/
def splitChars (sep : Char) : List Char → List (List Char)
  | [] => [[]]
  | c :: cs =>
    if c = sep then [] :: splitChars sep cs
    else match splitChars sep cs with
      | [] => [[c]]
      | h :: t => (c :: h) :: t

/-- `strings.Split(s, ",")`. -/
def Split (s : String) : List String :=
  (splitChars ',' s.data).map String.mk

/-- The path without its trailing separators. -/
def stripTrailingSep (cs : List Char) : List Char :=
  (cs.reverse.dropWhile (fun c => c = '/')).reverse

/-- The part of the path after its last separator. -/
def lastElement (cs : List Char) : List Char :=
  (cs.reverse.takeWhile (fun c => c ≠ '/')).reverse

/-- `filepath.Base`: the last element of the path, `"."` for the empty path
and `"/"` for a path made of separators only. -/
def Base (path : String) : String :=
  if path.data = [] then "."
  else
    let e := lastElement (stripTrailingSep path.data)
    if e = [] then "/" else String.mk e

/-- One step of `filepath.Clean` on a path element: `st.1` counts the leading
`..` elements kept (unrooted paths only), `st.2` holds the real elements
written so far, last one first. -/
def cleanStep (rooted : Bool) (st : Nat × List (List Char)) (e : List Char) :
    Nat × List (List Char) :=
  if e = [] ∨ e = ['.'] then st
  else if e = ['.', '.'] then
    match st.2 with
    | _ :: more => (st.1, more)
    | [] => if rooted then st else (st.1 + 1, [])
  else (st.1, e :: st.2)

/-- `filepath.Clean`: the shortest path equivalent to `path` by purely lexical
processing. -/
def cleanChars (path : List Char) : List Char :=
  if path = [] then ['.']
  else
    let rooted : Bool := path.head? = some '/'
    let st := (splitChars '/' path).foldl (cleanStep rooted) (0, [])
    let elems := List.replicate st.1 ['.', '.'] ++ st.2.reverse
    let body := List.intercalate ['/'] elems
    if rooted then '/' :: body
    else if body = [] then ['.'] else body

/-- `filepath.Join` of two elements: empty elements are ignored and the result
is cleaned. -/
def Join (dir name : String) : String :=
  if dir.data ≠ [] then String.mk (cleanChars (dir.data ++ '/' :: name.data))
  else if name.data ≠ [] then String.mk (cleanChars name.data)
  else ""

/-! ### `filepath.Match`

Go matches byte by byte and decodes a character only for `?` and for a
character class, so the pattern and the name are taken as their UTF-8 bytes. -/

/-- The UTF-8 encoding of a character. -/
def utf8Bytes (c : Char) : List Nat :=
  let n := c.toNat
  if n < 0x80 then [n]
  else if n < 0x800 then [0xC0 + n / 64, 0x80 + n % 64]
  else if n < 0x10000 then [0xE0 + n / 4096, 0x80 + n / 64 % 64, 0x80 + n % 64]
  else [0xF0 + n / 262144, 0x80 + n / 4096 % 64, 0x80 + n / 64 % 64, 0x80 + n % 64]

/-- The bytes of a Go string. -/
def bytesOf : List Char → List Nat
  | [] => []
  | c :: cs => utf8Bytes c ++ bytesOf cs

/-- The value `utf8.RuneError`. -/
def RuneError : Nat := 0xFFFD

/-- Whether a byte is a continuation byte of UTF-8. -/
def isCont (b : Nat) : Bool := decide (0x80 ≤ b) && decide (b ≤ 0xBF)

/-- `utf8.DecodeRuneInString`: the first character of the bytes and its width;
`(RuneError, 1)` when the bytes do not start with a valid encoding and
`(RuneError, 0)` when there is none. -/
def decodeRune : List Nat → Nat × Nat
  | [] => (RuneError, 0)
  | b0 :: rest =>
    if b0 < 0x80 then (b0, 1)
    else if 0xC2 ≤ b0 ∧ b0 ≤ 0xDF then
      match rest with
      | b1 :: _ =>
        if isCont b1 then ((b0 - 0xC0) * 64 + (b1 - 0x80), 2) else (RuneError, 1)
      | [] => (RuneError, 1)
    else if 0xE0 ≤ b0 ∧ b0 ≤ 0xEF then
      match rest with
      | b1 :: b2 :: _ =>
        let lo := if b0 = 0xE0 then 0xA0 else 0x80
        let hi := if b0 = 0xED then 0x9F else 0xBF
        if lo ≤ b1 ∧ b1 ≤ hi ∧ isCont b2 = true then
          ((b0 - 0xE0) * 4096 + (b1 - 0x80) * 64 + (b2 - 0x80), 3)
        else (RuneError, 1)
      | _ => (RuneError, 1)
    else if 0xF0 ≤ b0 ∧ b0 ≤ 0xF4 then
      match rest with
      | b1 :: b2 :: b3 :: _ =>
        let lo := if b0 = 0xF0 then 0x90 else 0x80
        let hi := if b0 = 0xF4 then 0x8F else 0xBF
        if lo ≤ b1 ∧ b1 ≤ hi ∧ isCont b2 = true ∧ isCont b3 = true then
          ((b0 - 0xF0) * 262144 + (b1 - 0x80) * 4096 + (b2 - 0x80) * 64 + (b3 - 0x80), 4)
        else (RuneError, 1)
      | _ => (RuneError, 1)
    else (RuneError, 1)

/-- `getEsc` of `filepath/match.go`: the possibly escaped character that
starts a range of a class, and the rest of the chunk, `none` for
`ErrBadPattern` (a class that ends here is malformed). -/
def getEsc : List Nat → Option (Nat × List Nat)
  | [] => none
  | c :: rest =>
    if c = '-'.toNat ∨ c = ']'.toNat then none
    else
      let chunk := if c = '\\'.toNat then rest else c :: rest
      if chunk = [] then none
      else
        let d := decodeRune chunk
        let nchunk := chunk.drop d.2
        if (d.1 = RuneError ∧ d.2 = 1) ∨ nchunk = [] then none
        else some (d.1, nchunk)

/-- The loop of `matchChunk` that parses the ranges of a character class and
tests the character `r` against them: the chunk after the closing bracket and
whether a range held `r`, `none` for `ErrBadPattern`.  Each turn consumes a
byte of the chunk, so the length of the chunk is fuel enough. -/
def classLoop (r : Nat) : Nat → List Nat → Bool → Nat → Option (List Nat × Bool)
  | 0, _, _, _ => none
  | fuel + 1, chunk, found, nrange =>
    if chunk.head? = some ']'.toNat ∧ 0 < nrange then some (chunk.tail, found)
    else
      match getEsc chunk with
      | none => none
      | some (lo, chunk1) =>
        if chunk1.head? = some '-'.toNat then
          match getEsc chunk1.tail with
          | none => none
          | some (hi, chunk2) =>
            classLoop r fuel chunk2 (found || (decide (lo ≤ r) && decide (r ≤ hi))) (nrange + 1)
        else
          classLoop r fuel chunk1 (found || (decide (lo ≤ r) && decide (r ≤ lo))) (nrange + 1)

/-- The three results of `matchChunk`: the rest of the name, whether the chunk
matched, and whether the chunk is malformed. -/
structure ChunkResult where
  rest : List Nat
  ok : Bool
  bad : Bool
deriving DecidableEq, Repr

/-- `matchChunk` of `filepath/match.go`: match the star-free `chunk` at the
start of `s`.  After the match has failed the loop goes on to check that the
chunk is well formed, no longer reading `s`.  A literal is compared byte by
byte; `?` and a class take one decoded character of `s`. -/
def matchChunkLoop : Nat → List Nat → List Nat → Bool → ChunkResult
  | 0, _, _, _ => ⟨[], false, true⟩
  | fuel + 1, chunk, s, failed =>
    match chunk with
    | [] => if failed then ⟨[], false, false⟩ else ⟨s, true, false⟩
    | c :: chunk1 =>
      let failed1 : Bool := failed || decide (s = [])
      if c = '['.toNat then
        let r : Nat := if failed1 then 0 else (decodeRune s).1
        let s1 := if failed1 then s else s.drop (decodeRune s).2
        let negated : Bool := chunk1.head? = some '^'.toNat
        let chunk2 := if negated then chunk1.tail else chunk1
        match classLoop r (chunk2.length + 1) chunk2 false 0 with
        | none => ⟨[], false, true⟩
        | some (chunk3, found) =>
          matchChunkLoop fuel chunk3 s1 (failed1 || (found == negated))
      else if c = '?'.toNat then
        if failed1 then matchChunkLoop fuel chunk1 s failed1
        else
          matchChunkLoop fuel chunk1 (s.drop (decodeRune s).2)
            (decide (s.head? = some '/'.toNat))
      else if c = '\\'.toNat then
        match chunk1 with
        | [] => ⟨[], false, true⟩
        | d :: chunk2 =>
          if failed1 then matchChunkLoop fuel chunk2 s failed1
          else matchChunkLoop fuel chunk2 s.tail (decide (s.head? ≠ some d))
      else
        if failed1 then matchChunkLoop fuel chunk1 s failed1
        else matchChunkLoop fuel chunk1 s.tail (decide (s.head? ≠ some c))

/-- `matchChunk(chunk, s)`. -/
def matchChunk (chunk s : List Nat) : ChunkResult :=
  matchChunkLoop (chunk.length + 1) chunk s false

/-- The scan of `scanChunk` after the leading stars: the chunk up to the next
star outside a class, and the rest of the pattern. -/
def scanBody : Bool → List Nat → List Nat × List Nat
  | _, [] => ([], [])
  | inrange, c :: cs =>
    if c = '\\'.toNat then
      match cs with
      | [] => ([c], [])
      | d :: ds => let p := scanBody inrange ds; (c :: d :: p.1, p.2)
    else if c = '['.toNat then let p := scanBody true cs; (c :: p.1, p.2)
    else if c = ']'.toNat then let p := scanBody false cs; (c :: p.1, p.2)
    else if c = '*'.toNat then
      if inrange then let p := scanBody inrange cs; (c :: p.1, p.2)
      else ([], c :: cs)
    else let p := scanBody inrange cs; (c :: p.1, p.2)

/-- `scanChunk`: whether the pattern starts with stars, the chunk after them
and the rest of the pattern. -/
def scanChunk (pattern : List Nat) : Bool × List Nat × List Nat :=
  let p := pattern.dropWhile (fun c => c = '*'.toNat)
  let r := scanBody false p
  (decide (pattern.head? = some '*'.toNat), r.1, r.2)

/-- What the search for a chunk after a star ends with. -/
inductive StarResult where
  | found (rest : List Nat)
  | bad
  | nomatch
deriving DecidableEq, Repr

/-- The loop of `Match` that looks for the chunk after skipping `i + 1` bytes
of the name; a separator cannot be skipped. -/
def starLoop (chunk : List Nat) (lastChunk : Bool) : List Nat → StarResult
  | [] => .nomatch
  | c :: rest =>
    if c = '/'.toNat then .nomatch
    else
      let r := matchChunk chunk rest
      if r.ok then
        if lastChunk ∧ r.rest ≠ [] then starLoop chunk lastChunk rest
        else .found r.rest
      else if r.bad then .bad
      else starLoop chunk lastChunk rest

/-- The main loop of `filepath.Match`: the pair (matched, malformed).  A
mismatch is reported without looking at the rest of the pattern.  Each turn
consumes a byte of the pattern, so its length is fuel enough. -/
def matchLoop : Nat → List Nat → List Nat → Bool × Bool
  | 0, _, _ => (false, true)
  | fuel + 1, pattern, name =>
    if pattern = [] then (decide (name = []), false)
    else
      let sc := scanChunk pattern
      let star := sc.1
      let chunk := sc.2.1
      let rest := sc.2.2
      if star ∧ chunk = [] then (!(name.contains '/'.toNat), false)
      else
        let r := matchChunk chunk name
        if r.ok ∧ (r.rest = [] ∨ rest ≠ []) then matchLoop fuel rest r.rest
        else if r.bad then (false, true)
        else
          match (if star then starLoop chunk (decide (rest = [])) name else .nomatch) with
          | .found t => matchLoop fuel rest t
          | .bad => (false, true)
          | .nomatch => (false, false)

/-- `filepath.Match(pattern, name)`: whether the name matches the shell
pattern, and whether an error (`ErrBadPattern`) is returned.  A malformed
pattern is reported only when the matching reaches its malformed part. -/
def Match (pattern name : String) : Bool × Bool :=
  matchLoop ((bytesOf pattern.data).length + 1) (bytesOf pattern.data) (bytesOf name.data)

/-! ## The change handler (`handler.go`) -/

/-- The token the monitor sends before each walk. -/
def IntervalStartToken : String := "--- STARTING TO MONITOR FOR CHANGES ---"

/-- The token the monitor sends after each walk. -/
def IntervalEndToken : String := "--- DONE MONITORING CHANGES ---"

/-- The two actions of the handler at the end of a cycle. -/
inductive Action where
  | handleChangeFound
  | handleNoChangeFound
deriving DecidableEq, Repr

/-- One turn of the loop of `StartChangeHandler`: the state is the flag
`foundChange` and the actions invoked so far. -/
def handlerStep (st : Bool × List Action) (entry : String) : Bool × List Action :=
  if entry = IntervalStartToken then (false, st.2)
  else if entry = IntervalEndToken then
    (st.1, st.2 ++ [if st.1 then Action.handleChangeFound else Action.handleNoChangeFound])
  else (true, st.2)

/-- The loop of `StartChangeHandler` over the entries received on the channel,
`foundChange` being false at first: the actions it invokes, in order. -/
def StartChangeHandler (changes : List String) : List Action :=
  (changes.foldl handlerStep (false, [])).2

/-- The entries of one well-formed cycle. -/
def cycleEntries (msgs : List String) : List String :=
  IntervalStartToken :: (msgs ++ [IntervalEndToken])

/-! ## The file system and the monitor (`monitor.go`) -/

/-- The part of `os.FileInfo` the program can observe. -/
structure FileInfo where
  isDir : Bool
  size : Nat
  modTime : Nat
deriving DecidableEq, Repr

/-- What `os.Open` does on a directory entry: it succeeds, it fails with an
error for which `os.IsNotExist` holds (a link whose target is missing), or it
fails with another error (permission denied). -/
inductive OpenResult where
  | ok
  | notExist
  | permission
deriving DecidableEq, Repr

mutual
/-- A node of the file system: a non-directory with its size, modification
time and the result of opening it, or a directory with its entries in the
order `ReadDir` lists them. -/
inductive Node where
  | file (size : Nat) (modTime : Nat) (opened : OpenResult) : Node
  | dir (size : Nat) (modTime : Nat) (entries : Entries) : Node
/-- The entries of a directory, each a name and a node. -/
inductive Entries where
  | nil : Entries
  | cons (name : String) (node : Node) (rest : Entries) : Entries
end

/-- What `Lstat` reports for a node. -/
def Node.info : Node → FileInfo
  | .file s t _ => ⟨false, s, t⟩
  | .dir s t _ => ⟨true, s, t⟩

/-- What `os.Open` does on a node; a directory opens. -/
def Node.opened : Node → OpenResult
  | .file _ _ o => o
  | .dir _ _ _ => .ok

/-- The error values the walk handles: `filepath.SkipDir` and the path error
of a failed `os.Open`. -/
inductive Error where
  | SkipDir
  | Permission (path : String)
deriving DecidableEq, Repr

/-- The field `cache` of the monitor: a map from paths to file information. -/
abbrev Cache := String → Option FileInfo

/-- The map `NewDirectoryMonitor` makes. -/
def emptyCache : Cache := fun _ => none

/-- The configuration fields of `DirectoryMonitor`; its field `cache` is passed
along explicitly as a `Cache`. -/
structure DirectoryMonitor where
  Dir : String
  NoTraverse : Bool
  Interval : Int
  IncludesPattern : String
  ExcludesPattern : String

/-- What a part of a walk does: the error it returns (`none` for nil), the
cache it leaves, the messages it sends on the channel in order, and the paths
on which the walk function was called, in order. -/
structure Outcome where
  err : Option Error
  cache : Cache
  sent : List String
  visited : List String

/-- Nothing done. -/
def Outcome.pure (c : Cache) : Outcome := ⟨none, c, [], []⟩

/-- Sequencing: the continuation runs when the first part returned nil. -/
def Outcome.seq (o : Outcome) (k : Cache → Outcome) : Outcome :=
  match o.err with
  | none =>
    let o2 := k o.cache
    ⟨o2.err, o2.cache, o.sent ++ o2.sent, o.visited ++ o2.visited⟩
  | some _ => o

/-- `removeCacheEntry`. -/
def removeCacheEntry (c : Cache) (dirname : String) : Cache :=
  fun p => if p = dirname then none else c p

/-- `addCacheEntry`. -/
def addCacheEntry (c : Cache) (dirname : String) (info : FileInfo) : Cache :=
  fun p => if p = dirname then some info else c p

/-- The loop shared by `isIncluded` and `isExcluded`: true at the first pattern
that matches, false at the first pattern that is malformed or when no pattern
is left. -/
def matchPatterns : List String → String → Bool
  | [], _ => false
  | pattern :: rest, basename =>
    let r := Match pattern basename
    if r.1 = true ∧ r.2 = false then true
    else if r.2 = true then false
    else matchPatterns rest basename

/-- `isIncluded`. -/
def isIncluded (m : DirectoryMonitor) (path : String) : Bool :=
  matchPatterns (Split m.IncludesPattern) (Base path)

/-- `isExcluded`. -/
def isExcluded (m : DirectoryMonitor) (path : String) : Bool :=
  matchPatterns (Split m.ExcludesPattern) (Base path)

/-- The message for a file that is not in the cache. -/
def msgNewFile (path : String) : String := "Found new file: " ++ path

/-- The message for a file whose size differs from the cached size. -/
def msgModifiedFile (path : String) : String := "Found modified file: " ++ path

/-- The message for a directory that is not in the cache. -/
def msgNewDirectory (dirname : String) : String := "Found new directory: " ++ dirname

/-- The message for an entry that cannot be opened because it does not exist;
the text after the colon is the path error of `os.Open`. -/
def msgRemoved (itemPath : String) : String :=
  "Found removed file or directory: " ++ ("open " ++ itemPath ++ ": no such file or directory")

/-- `isFileChanged`. -/
def isFileChanged (c : Cache) (path : String) (info : FileInfo) : Bool × String :=
  match c path with
  | none => (true, msgNewFile path)
  | some cachedInfo =>
    if info.size ≠ cachedInfo.size then (true, msgModifiedFile path)
    else (false, "")

/-- `handleNewDirectory`: `os.Stat` gives the information of the directory. -/
def handleNewDirectory (c : Cache) (dirname : String) (dirinfo : FileInfo) : Outcome :=
  ⟨none, addCacheEntry c dirname dirinfo, [msgNewDirectory dirname], []⟩

/-- `handleRemovedItemsFromDirectory`, the loop over the items `ReadDir`
lists. -/
def handleRemovedItemsFromDirectory (c : Cache) (dirname : String) : Entries → Outcome
  | .nil => Outcome.pure c
  | .cons name node rest =>
    let itemPath := Join dirname name
    match node.opened with
    | .ok => handleRemovedItemsFromDirectory c dirname rest
    | .notExist =>
      let o := handleRemovedItemsFromDirectory (removeCacheEntry c dirname) dirname rest
      ⟨o.err, o.cache, msgRemoved itemPath :: o.sent, o.visited⟩
    | .permission => ⟨some (Error.Permission itemPath), c, [], []⟩

/-- `handleExistingDirectory`. -/
def handleExistingDirectory (c : Cache) (dirname : String) (items : Entries) : Outcome :=
  handleRemovedItemsFromDirectory c dirname items

/-- `checkForDirectoryChanges` on a directory with the given information and
entries. -/
def checkForDirectoryChanges (c : Cache) (dirname : String) (dirinfo : FileInfo)
    (items : Entries) : Outcome :=
  match c dirname with
  | none => handleNewDirectory c dirname dirinfo
  | some _ => handleExistingDirectory c dirname items

/-- The function `walkDirectoryForChanges` hands to `filepath.Walk`, called on
`path` with the node found there; `nested` is the recursive call
`monitor.walkDirectoryForChanges(path, changes)`. -/
def fn (m : DirectoryMonitor) (dirname path : String) (node : Node)
    (nested : Cache → Outcome) (c : Cache) : Outcome :=
  if isExcluded m path then ⟨some Error.SkipDir, c, [], [path]⟩
  else
    match node with
    | .dir _ _ items =>
      let o1 : Outcome :=
        if m.NoTraverse = false ∧ dirname ≠ path then nested c else Outcome.pure c
      let o2 := o1.seq (fun c1 => checkForDirectoryChanges c1 path node.info items)
      ⟨o2.err, o2.cache, o2.sent, path :: o2.visited⟩
    | .file _ _ _ =>
      if isIncluded m path then
        let r := isFileChanged c path node.info
        if r.1 then ⟨none, addCacheEntry (removeCacheEntry c path) path node.info, [r.2], [path]⟩
        else ⟨none, c, [], [path]⟩
      else ⟨none, c, [], [path]⟩

/-- The end of `filepath.Walk`: `SkipDir` becomes nil. -/
def skipToNil (o : Outcome) : Outcome :=
  match o.err with
  | some Error.SkipDir => ⟨none, o.cache, o.sent, o.visited⟩
  | _ => o

mutual
/-- The function `walk` of `filepath.Walk` on the node at `path`, with the walk
function of `walkDirectoryForChanges(dirname, changes)`.  On a directory the
walk function runs first, then the entries are walked.  The nested call
`walkDirectoryForChanges(path, changes)` is `filepath.Walk` on the same
directory with `dirname = path`: there the walk function makes no nested call
of its own, so it is written out as the walk function followed by the walk of
the entries (see `walk_self`). -/
def walk (m : DirectoryMonitor) (dirname path : String) : Node → Cache → Outcome
  | .file s t o, c => fn m dirname path (.file s t o) Outcome.pure c
  | .dir s t items, c =>
    let nested : Cache → Outcome := fun c1 =>
      skipToNil ((fn m path path (.dir s t items) Outcome.pure c1).seq
        (walkEntries m path path items))
    (fn m dirname path (.dir s t items) nested c).seq (walkEntries m dirname path items)
/-- The loop of `walk` over the entries of the directory `dir`: an error of an
entry ends the loop, except `SkipDir` returned for a directory. -/
def walkEntries (m : DirectoryMonitor) (dirname dir : String) : Entries → Cache → Outcome
  | .nil, c => Outcome.pure c
  | .cons name node rest, c =>
    let o := walk m dirname (Join dir name) node c
    match o.err with
    | none => o.seq (walkEntries m dirname dir rest)
    | some Error.SkipDir =>
      if node.info.isDir then
        (Outcome.mk none o.cache o.sent o.visited).seq (walkEntries m dirname dir rest)
      else o
    | some _ => o
end

/-- `walkDirectoryForChanges(dirname, changes)` when `root` is the node at
`dirname`. -/
def walkDirectoryForChanges (m : DirectoryMonitor) (dirname : String) (root : Node)
    (c : Cache) : Outcome :=
  skipToNil (walk m dirname dirname root c)

/-- `buildInitialCache`: the walk from the monitored directory whose messages
go to a channel nobody reads; the caller ignores the error. -/
def buildInitialCache (m : DirectoryMonitor) (root : Node) (c : Cache) : Cache :=
  (walkDirectoryForChanges m m.Dir root c).cache

/-- The loop of `StartDirectoryMonitor`, one turn for each tick: `trees` gives
the file system found at each turn.  The values sent on the channel, in
order. -/
def monitorLoop (m : DirectoryMonitor) : Cache → List Node → List String
  | _, [] => []
  | c, root :: later =>
    let o := walkDirectoryForChanges m m.Dir root c
    IntervalStartToken :: (o.sent ++ IntervalEndToken ::
      (match o.err with
       | none => monitorLoop m o.cache later
       | some Error.SkipDir => monitorLoop m o.cache later
       | some _ => []))

/-- `StartDirectoryMonitor`: the initial cache is built on the tree `first`,
then the loop runs. -/
def StartDirectoryMonitor (m : DirectoryMonitor) (first : Node) (trees : List Node) :
    List String :=
  monitorLoop m (buildInitialCache m first emptyCache) trees


/-- The stream made of the given cycles, one after the other. -/
def streamOf : List (List String) → List String
  | [] => []
  | msgs :: later => cycleEntries msgs ++ streamOf later

/-- The action for a cycle with the given messages. -/
def cycleAction (msgs : List String) : Action :=
  if msgs = [] then Action.handleNoChangeFound else Action.handleChangeFound

/-- A message that is neither token. -/
abbrev NonSentinel (x : String) : Prop := x ≠ IntervalStartToken ∧ x ≠ IntervalEndToken


/-- A message of one of the four kinds a walk sends. -/
def IsChangeMessage (x : String) : Prop :=
  ∃ p, x = msgNewFile p ∨ x = msgModifiedFile p ∨ x = msgNewDirectory p ∨ x = msgRemoved p

/-- The entries of a directory as a list of names and nodes. -/
def Entries.toList : Entries → List (String × Node)
  | .nil => []
  | .cons name node rest => (name, node) :: rest.toList

mutual
/-- The nodes of the tree under `path`, each with its path, in the order of a
depth-first walk. -/
def Node.nodes (path : String) : Node → List (String × Node)
  | .file s t o => [(path, .file s t o)]
  | .dir s t items => (path, .dir s t items) :: Entries.nodes path items
/-- The nodes of the trees under the entries of the directory `dir`. -/
def Entries.nodes (dir : String) : Entries → List (String × Node)
  | .nil => []
  | .cons name node rest => Node.nodes (Join dir name) node ++ Entries.nodes dir rest
end

/-- A tree as a file system presents it: no two nodes share a path. -/
def Node.WellFormed (path : String) (root : Node) : Prop :=
  ((root.nodes path).map Prod.fst).Nodup

mutual
/-- The nodes of the tree that are not excluded and have no excluded directory
above them in the tree. -/
def reach (m : DirectoryMonitor) (path : String) : Node → List (String × Node)
  | .file s t o => if isExcluded m path then [] else [(path, .file s t o)]
  | .dir s t items =>
    if isExcluded m path then [] else (path, .dir s t items) :: reachEntries m path items
/-- The nodes of `reach` under the entries of the directory `dir`. -/
def reachEntries (m : DirectoryMonitor) (dir : String) : Entries → List (String × Node)
  | .nil => []
  | .cons name node rest => reach m (Join dir name) node ++ reachEntries m dir rest
end

/-- The messages the walk function and the directory check can send for the
node at `path`: for a non-directory the two messages of `isFileChanged`, for a
directory the new-directory message and a removed-item message for each entry
that `os.Open` does not find. -/
def Emits (path : String) (node : Node) (x : String) : Prop :=
  match node with
  | .file _ _ _ => x = msgNewFile path ∨ x = msgModifiedFile path
  | .dir _ _ items =>
    x = msgNewDirectory path ∨
      ∃ e ∈ items.toList, e.2.opened = OpenResult.notExist ∧ x = msgRemoved (Join path e.1)

/-- The rule of the loop of `walk` after an entry: go on after nil, and after
`SkipDir` returned for a directory; stop otherwise. -/
def Outcome.next (isDir : Bool) (o : Outcome) (k : Cache → Outcome) : Outcome :=
  match o.err with
  | none => o.seq k
  | some Error.SkipDir =>
    if isDir then (Outcome.mk none o.cache o.sent o.visited).seq k else o
  | some _ => o

/-- The outcome with one more visited path in front. -/
def Outcome.visit (path : String) (o : Outcome) : Outcome :=
  ⟨o.err, o.cache, o.sent, path :: o.visited⟩

/-- The messages and the cache changes of a part of a walk all come from the
nodes of `R`. -/
def Traced (R : List (String × Node)) (W : Cache → Outcome) : Prop :=
  ∀ c, (∀ x ∈ (W c).sent, ∃ e ∈ R, Emits e.1 e.2 x)
    ∧ (∀ q, (W c).cache q ≠ c q → ∃ e ∈ R, e.1 = q)

/-- One part of a walk after another, as functions of the cache. -/
def thenDo (W1 W2 : Cache → Outcome) : Cache → Outcome := fun c => (W1 c).seq W2

/-- The walk of an entry, then the rest of the loop. -/
def thenNext (isDir : Bool) (W1 W2 : Cache → Outcome) : Cache → Outcome :=
  fun c => (W1 c).next isDir W2

/-- A part of a walk that starts with a call of the walk function on `path`. -/
def visiting (path : String) (W : Cache → Outcome) : Cache → Outcome :=
  fun c => (W c).visit path

/-- A nested walk, whose `SkipDir` becomes nil. -/
def toNil (W : Cache → Outcome) : Cache → Outcome := fun c => skipToNil (W c)

/-- The directory check as a function of the cache. -/
def checkDir (path : String) (info : FileInfo) (items : Entries) : Cache → Outcome :=
  fun c => checkForDirectoryChanges c path info items

/-- The paths of the entries of the directory `dir` that `os.Open` does not
find. -/
def removedPaths (dir : String) : Entries → List String
  | .nil => []
  | .cons name node rest =>
    (if node.opened = OpenResult.notExist then [Join dir name] else [])
      ++ removedPaths dir rest

mutual
/-- The paths a walk can name in a message or change in the cache: the paths
of the nodes that are reached, and for each reached directory the paths of
its entries that `os.Open` does not find. -/
def touched (m : DirectoryMonitor) (path : String) : Node → List String
  | .file _ _ _ => if isExcluded m path then [] else [path]
  | .dir _ _ items =>
    if isExcluded m path then []
    else path :: (removedPaths path items ++ touchedEntries m path items)
/-- The paths of `touched` under the entries of the directory `dir`. -/
def touchedEntries (m : DirectoryMonitor) (dir : String) : Entries → List String
  | .nil => []
  | .cons name node rest => touched m (Join dir name) node ++ touchedEntries m dir rest
end

/-- The message `x` is one of the four messages about the path `q`. -/
def Names (q : String) (x : String) : Prop :=
  x = msgNewFile q ∨ x = msgModifiedFile q ∨ x = msgNewDirectory q ∨ x = msgRemoved q

/-- Whether a message is one of the two messages of `isFileChanged` about the
file `f`. -/
def aboutFile (f : String) (x : String) : Bool :=
  decide (x = msgNewFile f) || decide (x = msgModifiedFile f)

/-- What the walk function sends for the file `f` with information `fi` when it
finds the cache `c`. -/
def fileChange (c : Cache) (f : String) (fi : FileInfo) : List String :=
  if (isFileChanged c f fi).1 = true then [(isFileChanged c f fi).2] else []

/-- The outcome `o` of a part of a walk from the cache `c` treats the file `f`
as one call of the walk function does: its messages about `f` are those of
`isFileChanged` on `c` when the part visits `f` and none otherwise, and the
entry of `f` is replaced when a message was due and kept otherwise. -/
def TracksAt (f : String) (fi : FileInfo) (c : Cache) (o : Outcome) : Prop :=
  o.sent.filter (aboutFile f) = (if f ∈ o.visited then fileChange c f fi else [])
  ∧ o.cache f = (if f ∈ o.visited ∧ (isFileChanged c f fi).1 = true then some fi else c f)

/-- `TracksAt` from every cache. -/
def Tracks (f : String) (fi : FileInfo) (W : Cache → Outcome) : Prop :=
  ∀ c, TracksAt f fi c (W c)

mutual
/-- Whether the walk function is called on the path `f` by a walk of the tree
under `path` that meets no error: `f` is the path of the node itself, or the
node is a directory that is not excluded and `f` is found among its
entries. -/
def findable (m : DirectoryMonitor) (f : String) (path : String) : Node → Bool
  | .file _ _ _ => decide (path = f)
  | .dir _ _ items =>
    decide (path = f) || (!isExcluded m path && findableEntries m f path items)
/-- Whether `f` is found among the entries of the directory `dir`: under the
first entry, or under a later entry when the first entry is a directory or is
not excluded (an excluded non-directory ends the walk of the directory). -/
def findableEntries (m : DirectoryMonitor) (f : String) (dir : String) : Entries → Bool
  | .nil => false
  | .cons name node rest =>
    findable m f (Join dir name) node
      || ((node.info.isDir || !isExcluded m (Join dir name)) && findableEntries m f dir rest)
end

/-- A part of a walk that never returns `SkipDir`. -/
def NoSkip (W : Cache → Outcome) : Prop := ∀ c, (W c).err ≠ some Error.SkipDir

/-- Every entry of the first cache is an entry of the second. -/
def Cache.le (c c2 : Cache) : Prop := ∀ p v, c p = some v → c2 p = some v

/-- An error that ends the loop of the monitor. -/
def Fatal (e : Option Error) : Prop := ∃ q, e = some (Error.Permission q)

/-- A part of a walk over a file system whose information map is `F`: from a
cache that agrees with `F` it only adds entries that agree with `F`, and run
again from any cache that holds these entries and agrees with `F` it sends
nothing, leaves the cache as it is, and returns the same error or a fatal
one. -/
def Quiet (F : Cache) (W : Cache → Outcome) : Prop :=
  ∀ c, Cache.le c F →
    Cache.le c (W c).cache ∧ Cache.le (W c).cache F ∧
    ∀ c2, Cache.le (W c).cache c2 → Cache.le c2 F →
      (W c2).sent = [] ∧ (W c2).cache = c2 ∧ ((W c2).err = (W c).err ∨ Fatal (W c2).err)

/-- The information map of a tree: what `Lstat` reports at each path. -/
def Node.infoAt (path : String) (root : Node) : Cache :=
  fun q => ((root.nodes path).find? (fun e => decide (e.1 = q))).map (fun e => e.2.info)

/-! # Theorems -/

/-! ## The handler decides once per cycle -/

theorem foldl_messages (msgs : List String) (h : ∀ x ∈ msgs, NonSentinel x)
    (st : Bool × List Action) :
    msgs.foldl handlerStep st = (if msgs = [] then st.1 else true, st.2) := by
  induction msgs generalizing st with
  | nil => simp
  | cons x xs ih =>
    have hx := h x (List.mem_cons_self _ _)
    have hstep : handlerStep st x = (true, st.2) := by
      simp [handlerStep, hx.1, hx.2]
    rw [List.foldl_cons, hstep, ih (fun y hy => h y (List.mem_cons_of_mem _ hy))]
    cases xs <;> simp

theorem foldl_open_cycle (msgs : List String) (h : ∀ x ∈ msgs, NonSentinel x)
    (st : Bool × List Action) :
    (IntervalStartToken :: msgs).foldl handlerStep st = (!(decide (msgs = [])), st.2) := by
  have h0 : handlerStep st IntervalStartToken = (false, st.2) := by simp [handlerStep]
  rw [List.foldl_cons, h0, foldl_messages msgs h]
  by_cases hm : msgs = [] <;> simp [hm]

theorem start_ne_end : IntervalEndToken ≠ IntervalStartToken := by decide

theorem foldl_cycle (msgs : List String) (h : ∀ x ∈ msgs, NonSentinel x)
    (st : Bool × List Action) :
    (cycleEntries msgs).foldl handlerStep st
      = (!(decide (msgs = [])), st.2 ++ [cycleAction msgs]) := by
  have h1 : cycleEntries msgs = (IntervalStartToken :: msgs) ++ [IntervalEndToken] := rfl
  rw [h1, List.foldl_append, foldl_open_cycle msgs h]
  by_cases hm : msgs = [] <;>
    simp [handlerStep, start_ne_end, cycleAction, hm]

theorem foldl_stream (cycles : List (List String))
    (h : ∀ msgs ∈ cycles, ∀ x ∈ msgs, NonSentinel x) (st : Bool × List Action) :
    ((streamOf cycles).foldl handlerStep st).2 = st.2 ++ cycles.map cycleAction := by
  induction cycles generalizing st with
  | nil => simp [streamOf]
  | cons msgs later ih =>
    rw [streamOf, List.foldl_append, foldl_cycle msgs (h msgs (List.mem_cons_self _ _)),
      ih (fun ms hms => h ms (List.mem_cons_of_mem _ hms))]
    simp

/-- C1: on a stream of well-formed cycles the handler invokes one action per
cycle, in order, `handleChangeFound` exactly for the cycles that hold a
message and `handleNoChangeFound` for the others, each decided by the
messages of its own cycle; and while a further cycle is still open (its start
token and some of its messages received, its end token not yet) no action has
been added for it. -/
theorem handler_one_action_per_cycle (cycles : List (List String))
    (h : ∀ msgs ∈ cycles, ∀ x ∈ msgs, NonSentinel x) :
    StartChangeHandler (streamOf cycles) = cycles.map cycleAction
    ∧ (∀ msgs, cycleAction msgs = Action.handleChangeFound ↔ msgs ≠ [])
    ∧ (∀ opened : List String, (∀ x ∈ opened, NonSentinel x) →
        StartChangeHandler (streamOf cycles ++ IntervalStartToken :: opened)
          = cycles.map cycleAction) := by
  refine ⟨?_, ?_, ?_⟩
  · simpa [StartChangeHandler] using foldl_stream cycles h (false, [])
  · intro msgs
    by_cases hm : msgs = [] <;> simp [cycleAction, hm]
  · intro opened ho
    unfold StartChangeHandler
    rw [List.foldl_append, foldl_open_cycle opened ho]
    simpa using foldl_stream cycles h (false, [])

theorem handler_one_action_per_cycle_witness :
    StartChangeHandler (streamOf [[], ["Found new file: a"], []])
      = [Action.handleNoChangeFound, Action.handleChangeFound, Action.handleNoChangeFound] :=
  (handler_one_action_per_cycle [[], ["Found new file: a"], []] (by decide)).1

/-! ## The include and exclude filters -/

theorem matchPatterns_iff (ps : List String) (b : String) :
    matchPatterns ps b = true ↔
      ∃ pre p post, ps = pre ++ p :: post ∧ (Match p b).1 = true ∧ (Match p b).2 = false
        ∧ ∀ q ∈ pre, (Match q b).2 = false := by
  induction ps with
  | nil => simp [matchPatterns]
  | cons p rest ih =>
    by_cases h1 : (Match p b).1 = true ∧ (Match p b).2 = false
    · have hv : matchPatterns (p :: rest) b = true := by simp [matchPatterns, h1.1, h1.2]
      rw [hv]
      simp only [true_iff]
      exact ⟨[], p, rest, rfl, h1.1, h1.2, by simp⟩
    · by_cases h2 : (Match p b).2 = true
      · have hv : matchPatterns (p :: rest) b = false := by
          simp [matchPatterns, h2]
        rw [hv]
        constructor
        · intro h; exact absurd h (by simp)
        · rintro ⟨pre, q, post, hsplit, hq1, hq2, hpre⟩
          cases pre with
          | nil =>
            simp only [List.nil_append, List.cons.injEq] at hsplit
            rw [← hsplit.1] at hq2
            rw [hq2] at h2
            exact absurd h2 (by simp)
          | cons a pre1 =>
            simp only [List.cons_append, List.cons.injEq] at hsplit
            have := hpre a (List.mem_cons_self _ _)
            rw [← hsplit.1, h2] at this
            exact absurd this (by simp)
      · have h2f : (Match p b).2 = false := by simpa using h2
        have h1f : (Match p b).1 = false := by
          cases h : (Match p b).1
          · rfl
          · exact absurd ⟨h, h2f⟩ h1
        have hv : matchPatterns (p :: rest) b = matchPatterns rest b := by
          simp [matchPatterns, h1f, h2f]
        rw [hv, ih]
        constructor
        · rintro ⟨pre, q, post, hsplit, hq1, hq2, hpre⟩
          refine ⟨p :: pre, q, post, by simp [hsplit], hq1, hq2, ?_⟩
          intro x hx
          rcases List.mem_cons.1 hx with hx | hx
          · rw [hx]; exact h2f
          · exact hpre x hx
        · rintro ⟨pre, q, post, hsplit, hq1, hq2, hpre⟩
          cases pre with
          | nil =>
            simp only [List.nil_append, List.cons.injEq] at hsplit
            rw [← hsplit.1, h1f] at hq1
            exact absurd hq1 (by simp)
          | cons a pre1 =>
            simp only [List.cons_append, List.cons.injEq] at hsplit
            exact ⟨pre1, q, post, hsplit.2, hq1, hq2,
              fun x hx => hpre x (List.mem_cons_of_mem _ hx)⟩

/-- C8, refuted as stated: with the include list `[,*.txt` the basename `a.txt`
matches the well-formed pattern `*.txt`, yet `isIncluded` is false because
`filepath.Match` returns an error for the pattern `[` that stands before it;
the same holds for `isExcluded`. -/
theorem malformed_pattern_stops_matching :
    "*.txt" ∈ Split "[,*.txt" ∧ Match "*.txt" (Base "a.txt") = (true, false)
    ∧ Match "[" (Base "a.txt") = (false, true)
    ∧ isIncluded ⟨"./", false, 5, "[,*.txt", ""⟩ "a.txt" = false
    ∧ isExcluded ⟨"./", false, 5, "*", "[,*.txt"⟩ "a.txt" = false := by
  decide

/-- C8, amended: `isIncluded` (resp. `isExcluded`) is true exactly when some
pattern of the list matches the basename and `filepath.Match` returns no error
on the basename for any pattern standing before it: a pattern for which
`filepath.Match` returns an error ends the loop with the result false.
`filepath.Match` returns the error only when the matching reaches the
malformed part of the pattern: `x*[` is a plain mismatch on `abc`, so with the
list `x*[,*` the basename `abc` is included and excluded. -/
theorem patterns_match_until_error (m : DirectoryMonitor) (path : String) :
    (isIncluded m path = true ↔
      ∃ pre p post, Split m.IncludesPattern = pre ++ p :: post
        ∧ (Match p (Base path)).1 = true ∧ (Match p (Base path)).2 = false
        ∧ ∀ q ∈ pre, (Match q (Base path)).2 = false)
    ∧ (isExcluded m path = true ↔
      ∃ pre p post, Split m.ExcludesPattern = pre ++ p :: post
        ∧ (Match p (Base path)).1 = true ∧ (Match p (Base path)).2 = false
        ∧ ∀ q ∈ pre, (Match q (Base path)).2 = false)
    ∧ Match "x*[" (Base "abc") = (false, false)
    ∧ isIncluded ⟨"./", false, 5, "x*[,*", ""⟩ "abc" = true
    ∧ isExcluded ⟨"./", false, 5, "*", "x*[,*"⟩ "abc" = true :=
  ⟨matchPatterns_iff _ _, matchPatterns_iff _ _, by decide, by decide, by decide⟩

theorem Base_data_ne_nil (path : String) : (Base path).data ≠ [] := by
  unfold Base
  by_cases h : path.data = []
  · simp [h]
  · by_cases h2 : lastElement (stripTrailingSep path.data) = []
    · simp [h, h2]
    · simp [h, h2]

theorem bytesOf_ne_nil (cs : List Char) (h : cs ≠ []) : bytesOf cs ≠ [] := by
  cases cs with
  | nil => exact absurd rfl h
  | cons c rest =>
    have hc : utf8Bytes c ≠ [] := by
      unfold utf8Bytes
      simp only
      split
      · simp
      · split
        · simp
        · split <;> simp
    intro hb
    simp only [bytesOf, List.append_eq_nil] at hb
    exact hc hb.1

theorem Match_empty_pattern (name : String) :
    Match "" name = (decide (bytesOf name.data = []), false) := by
  simp [Match, matchLoop, bytesOf]

/-! ## Induction on the file system tree and the shape of the walk -/

theorem tree_induction {P : Node → Prop} {Q : Entries → Prop}
    (hfile : ∀ s t o, P (.file s t o))
    (hdir : ∀ s t items, Q items → P (.dir s t items))
    (hnil : Q .nil)
    (hcons : ∀ name node rest, P node → Q rest → Q (.cons name node rest)) :
    (∀ n, P n) ∧ (∀ es, Q es) :=
  ⟨fun n => Node.rec (motive_1 := P) (motive_2 := Q) hfile hdir hnil hcons n,
   fun es => Entries.rec (motive_1 := P) (motive_2 := Q) hfile hdir hnil hcons es⟩

theorem walk_file (m : DirectoryMonitor) (dirname path : String) (s t : Nat) (o : OpenResult)
    (c : Cache) :
    walk m dirname path (.file s t o) c = fn m dirname path (.file s t o) Outcome.pure c := by
  simp [walk]

theorem walk_dir (m : DirectoryMonitor) (dirname path : String) (s t : Nat) (items : Entries)
    (c : Cache) :
    walk m dirname path (.dir s t items) c
      = (fn m dirname path (.dir s t items)
          (fun c1 => skipToNil ((fn m path path (.dir s t items) Outcome.pure c1).seq
            (walkEntries m path path items))) c).seq (walkEntries m dirname path items) := by
  simp [walk]

theorem walkEntries_nil (m : DirectoryMonitor) (dirname dir : String) (c : Cache) :
    walkEntries m dirname dir .nil c = Outcome.pure c := by
  simp [walkEntries]

theorem walkEntries_cons (m : DirectoryMonitor) (dirname dir name : String) (node : Node)
    (rest : Entries) (c : Cache) :
    walkEntries m dirname dir (.cons name node rest) c
      = (match (walk m dirname (Join dir name) node c).err with
        | none => (walk m dirname (Join dir name) node c).seq (walkEntries m dirname dir rest)
        | some Error.SkipDir =>
          if node.info.isDir then
            (Outcome.mk none (walk m dirname (Join dir name) node c).cache
              (walk m dirname (Join dir name) node c).sent
              (walk m dirname (Join dir name) node c).visited).seq
              (walkEntries m dirname dir rest)
          else walk m dirname (Join dir name) node c
        | some _ => walk m dirname (Join dir name) node c) := by
  simp [walkEntries]

/-- The nested call written out in `walk` is the walk of the same directory
with `dirname = path`. -/
theorem walk_self (m : DirectoryMonitor) (path : String) (s t : Nat) (items : Entries)
    (c : Cache) :
    walkDirectoryForChanges m path (.dir s t items) c
      = skipToNil ((fn m path path (.dir s t items) Outcome.pure c).seq
          (walkEntries m path path items)) := by
  unfold walkDirectoryForChanges
  rw [walk_dir]
  simp [fn]

theorem walkEntries_cons_next (m : DirectoryMonitor) (dirname dir name : String) (node : Node)
    (rest : Entries) (c : Cache) :
    walkEntries m dirname dir (.cons name node rest) c
      = (walk m dirname (Join dir name) node c).next node.info.isDir
          (walkEntries m dirname dir rest) := by
  rw [walkEntries_cons]
  unfold Outcome.next
  rfl

theorem fn_excluded (m : DirectoryMonitor) (dirname path : String) (node : Node)
    (nested : Cache → Outcome) (c : Cache) (h : isExcluded m path = true) :
    fn m dirname path node nested c = ⟨some Error.SkipDir, c, [], [path]⟩ := by
  simp [fn, h]

theorem fn_dir (m : DirectoryMonitor) (dirname path : String) (s t : Nat) (items : Entries)
    (nested : Cache → Outcome) (c : Cache) (h : isExcluded m path = false) :
    fn m dirname path (.dir s t items) nested c
      = ((if m.NoTraverse = false ∧ dirname ≠ path then nested c else Outcome.pure c).seq
          (fun c1 => checkForDirectoryChanges c1 path ⟨true, s, t⟩ items)).visit path := by
  simp [fn, h, Outcome.visit, Node.info]

theorem fn_file (m : DirectoryMonitor) (dirname path : String) (s t : Nat) (o : OpenResult)
    (nested : Cache → Outcome) (c : Cache) (h : isExcluded m path = false) :
    fn m dirname path (.file s t o) nested c
      = if isIncluded m path = true ∧ (isFileChanged c path ⟨false, s, t⟩).1 = true then
          ⟨none, addCacheEntry (removeCacheEntry c path) path ⟨false, s, t⟩,
            [(isFileChanged c path ⟨false, s, t⟩).2], [path]⟩
        else ⟨none, c, [], [path]⟩ := by
  by_cases hi : isIncluded m path = true
  · by_cases hc : (isFileChanged c path ⟨false, s, t⟩).1 = true
    · simp [fn, h, hi, hc, Node.info]
    · simp [fn, h, hi, hc, Node.info]
  · simp [fn, h, hi]

theorem walk_dir_excluded (m : DirectoryMonitor) (dirname path : String) (s t : Nat)
    (items : Entries) (c : Cache) (h : isExcluded m path = true) :
    walk m dirname path (.dir s t items) c = ⟨some Error.SkipDir, c, [], [path]⟩ := by
  rw [walk_dir, fn_excluded _ _ _ _ _ _ h]
  simp [Outcome.seq]

/-- The walk of a directory that is not excluded: the nested walk when the
directory is not the one the walk started from and traversal is on, the check
of the directory, then the entries. -/
theorem walk_dir_included (m : DirectoryMonitor) (dirname path : String) (s t : Nat)
    (items : Entries) (c : Cache) (h : isExcluded m path = false) :
    walk m dirname path (.dir s t items) c
      = (((if m.NoTraverse = false ∧ dirname ≠ path then
            skipToNil (((Outcome.pure c).seq
              (fun c1 => checkForDirectoryChanges c1 path ⟨true, s, t⟩ items)).visit path
              |>.seq (walkEntries m path path items))
           else Outcome.pure c).seq
          (fun c1 => checkForDirectoryChanges c1 path ⟨true, s, t⟩ items)).visit path).seq
        (walkEntries m dirname path items) := by
  rw [walk_dir, fn_dir _ _ _ _ _ _ _ _ h, fn_dir _ _ _ _ _ _ _ _ h]
  simp

/-! ## The empty exclude list -/

theorem reach_eq_nodes (m : DirectoryMonitor) (h : ∀ path, isExcluded m path = false) :
    (∀ n path, reach m path n = Node.nodes path n)
    ∧ (∀ es dir, reachEntries m dir es = Entries.nodes dir es) := by
  apply tree_induction
  · intro s t o path
    simp [reach, Node.nodes, h]
  · intro s t items ih path
    simp [reach, Node.nodes, h, ih]
  · intro dir
    simp [reachEntries, Entries.nodes]
  · intro name node rest ihn ihr dir
    simp [reachEntries, Entries.nodes, ihn, ihr]

/-- C10: with the empty `ExcludesPattern` (the default of the command line)
`isExcluded` is false for every path, among them the empty path, the root `./`
and paths that end in a separator; so no node of a tree is pruned: the nodes
the walk reaches are all the nodes of the tree. -/
theorem empty_excludes_excludes_nothing (m : DirectoryMonitor)
    (h : m.ExcludesPattern = "") :
    (∀ path, isExcluded m path = false)
    ∧ (∀ root path, reach m path root = root.nodes path) := by
  have hs : Split "" = [""] := by decide
  have hex : ∀ path, isExcluded m path = false := by
    intro path
    unfold isExcluded
    rw [h, hs]
    simp [matchPatterns, Match_empty_pattern, bytesOf_ne_nil _ (Base_data_ne_nil _)]
  exact ⟨hex, fun root path => (reach_eq_nodes m hex).1 root path⟩

theorem empty_excludes_excludes_nothing_witness :
    isExcluded ⟨"./", false, 5, "*", ""⟩ "" = false
    ∧ isExcluded ⟨"./", false, 5, "*", ""⟩ "./" = false
    ∧ isExcluded ⟨"./", false, 5, "*", ""⟩ "a/b/" = false :=
  ⟨(empty_excludes_excludes_nothing _ rfl).1 "", (empty_excludes_excludes_nothing _ rfl).1 "./",
    (empty_excludes_excludes_nothing _ rfl).1 "a/b/"⟩

theorem pure_seq (c : Cache) (k : Cache → Outcome) : (Outcome.pure c).seq k = k c := by
  simp [Outcome.pure, Outcome.seq]

theorem walk_dir_shape (m : DirectoryMonitor) (dirname path : String) (s t : Nat)
    (items : Entries) (h : isExcluded m path = false) :
    walk m dirname path (.dir s t items)
      = thenDo (visiting path (thenDo
          (if m.NoTraverse = false ∧ dirname ≠ path then
            toNil (thenDo (visiting path (checkDir path ⟨true, s, t⟩ items))
              (walkEntries m path path items))
           else Outcome.pure)
          (checkDir path ⟨true, s, t⟩ items)))
        (walkEntries m dirname path items) := by
  funext c
  rw [walk_dir_included _ _ _ _ _ _ _ h]
  by_cases hc : m.NoTraverse = false ∧ dirname ≠ path
  · rw [if_pos hc, if_pos hc]
    simp only [thenDo, visiting, toNil, checkDir, pure_seq]
    rfl
  · rw [if_neg hc, if_neg hc]
    simp only [thenDo, visiting, toNil, checkDir, pure_seq]

theorem walkEntries_cons_shape (m : DirectoryMonitor) (dirname dir name : String)
    (node : Node) (rest : Entries) :
    walkEntries m dirname dir (.cons name node rest)
      = thenNext node.info.isDir (walk m dirname (Join dir name) node)
          (walkEntries m dirname dir rest) := by
  funext c
  rw [walkEntries_cons_next]
  rfl

theorem seq_sent (o : Outcome) (k : Cache → Outcome) :
    (o.seq k).sent = o.sent ++ (if o.err = none then (k o.cache).sent else []) := by
  unfold Outcome.seq
  cases h : o.err <;> simp

theorem seq_cache (o : Outcome) (k : Cache → Outcome) :
    (o.seq k).cache = if o.err = none then (k o.cache).cache else o.cache := by
  unfold Outcome.seq
  cases h : o.err <;> simp

theorem seq_visited (o : Outcome) (k : Cache → Outcome) :
    (o.seq k).visited = o.visited ++ (if o.err = none then (k o.cache).visited else []) := by
  unfold Outcome.seq
  cases h : o.err <;> simp

theorem seq_err (o : Outcome) (k : Cache → Outcome) :
    (o.seq k).err = if o.err = none then (k o.cache).err else o.err := by
  unfold Outcome.seq
  cases h : o.err <;> simp [h]

/-- Whether the loop of `walk` goes on after an entry with this outcome. -/
theorem next_cases (isDir : Bool) (o : Outcome) (k : Cache → Outcome) :
    (o.next isDir k = o ∧ o.err ≠ none ∧ ¬ (o.err = some Error.SkipDir ∧ isDir = true))
    ∨ ((o.err = none ∨ (o.err = some Error.SkipDir ∧ isDir = true))
        ∧ (o.next isDir k).err = (k o.cache).err
        ∧ (o.next isDir k).cache = (k o.cache).cache
        ∧ (o.next isDir k).sent = o.sent ++ (k o.cache).sent
        ∧ (o.next isDir k).visited = o.visited ++ (k o.cache).visited) := by
  unfold Outcome.next
  cases h : o.err with
  | none => right; simp [Outcome.seq, h]
  | some e =>
    cases e with
    | SkipDir =>
      cases isDir
      · left; simp
      · right; simp [Outcome.seq]
    | Permission p => left; simp

theorem skipToNil_sent (o : Outcome) : (skipToNil o).sent = o.sent := by
  unfold skipToNil; split <;> rfl

theorem skipToNil_cache (o : Outcome) : (skipToNil o).cache = o.cache := by
  unfold skipToNil; split <;> rfl

theorem skipToNil_visited (o : Outcome) : (skipToNil o).visited = o.visited := by
  unfold skipToNil; split <;> rfl

theorem skipToNil_err (o : Outcome) :
    (skipToNil o).err = if o.err = some Error.SkipDir then none else o.err := by
  unfold skipToNil
  split
  · next h => simp [h]
  · next h =>
    by_cases h2 : o.err = some Error.SkipDir
    · exact absurd h2 h
    · simp [h2]

/-! ## Where messages and cache changes come from -/

theorem Traced.mono {R R2 : List (String × Node)} {W : Cache → Outcome}
    (h : Traced R W) (hsub : R ⊆ R2) : Traced R2 W := by
  intro c
  refine ⟨fun x hx => ?_, fun q hq => ?_⟩
  · obtain ⟨e, he, hem⟩ := (h c).1 x hx
    exact ⟨e, hsub he, hem⟩
  · obtain ⟨e, he, hem⟩ := (h c).2 q hq
    exact ⟨e, hsub he, hem⟩

theorem Traced.pure_traced : Traced [] Outcome.pure := by
  intro c
  simp [Outcome.pure]

theorem Traced.thenDo_traced {R1 R2 : List (String × Node)} {W1 W2 : Cache → Outcome}
    (h1 : Traced R1 W1) (h2 : Traced R2 W2) : Traced (R1 ++ R2) (thenDo W1 W2) := by
  intro c
  unfold Watcher.thenDo
  rw [seq_sent, seq_cache]
  refine ⟨fun x hx => ?_, fun q hq => ?_⟩
  · rcases List.mem_append.1 hx with hx | hx
    · obtain ⟨e, he, hem⟩ := (h1 c).1 x hx
      exact ⟨e, List.mem_append_left _ he, hem⟩
    · by_cases hn : (W1 c).err = none
      · simp only [hn, if_true] at hx
        obtain ⟨e, he, hem⟩ := (h2 _).1 x hx
        exact ⟨e, List.mem_append_right _ he, hem⟩
      · simp [hn] at hx
  · by_cases h0 : (W1 c).cache q = c q
    · by_cases hn : (W1 c).err = none
      · simp only [hn, if_true] at hq
        rw [← h0] at hq
        obtain ⟨e, he, hem⟩ := (h2 _).2 q hq
        exact ⟨e, List.mem_append_right _ he, hem⟩
      · simp only [hn, if_false] at hq
        exact absurd h0 hq
    · obtain ⟨e, he, hem⟩ := (h1 c).2 q h0
      exact ⟨e, List.mem_append_left _ he, hem⟩

theorem Traced.thenNext_traced {R1 R2 : List (String × Node)} {W1 W2 : Cache → Outcome}
    (isDir : Bool) (h1 : Traced R1 W1) (h2 : Traced R2 W2) :
    Traced (R1 ++ R2) (thenNext isDir W1 W2) := by
  intro c
  unfold Watcher.thenNext
  rcases next_cases isDir (W1 c) W2 with ⟨he, _, _⟩ | ⟨_, _, hc, hs, _⟩
  · rw [he]
    exact (h1.mono (List.subset_append_left _ _)) c
  · rw [hc, hs]
    refine ⟨fun x hx => ?_, fun q hq => ?_⟩
    · rcases List.mem_append.1 hx with hx | hx
      · obtain ⟨e, he, hem⟩ := (h1 c).1 x hx
        exact ⟨e, List.mem_append_left _ he, hem⟩
      · obtain ⟨e, he, hem⟩ := (h2 _).1 x hx
        exact ⟨e, List.mem_append_right _ he, hem⟩
    · by_cases h0 : (W1 c).cache q = c q
      · rw [← h0] at hq
        obtain ⟨e, he, hem⟩ := (h2 _).2 q hq
        exact ⟨e, List.mem_append_right _ he, hem⟩
      · obtain ⟨e, he, hem⟩ := (h1 c).2 q h0
        exact ⟨e, List.mem_append_left _ he, hem⟩

theorem Traced.visiting_traced {R : List (String × Node)} {W : Cache → Outcome} (path : String)
    (h : Traced R W) : Traced R (visiting path W) := by
  intro c
  exact h c

theorem Traced.toNil_traced {R : List (String × Node)} {W : Cache → Outcome}
    (h : Traced R W) : Traced R (toNil W) := by
  intro c
  unfold Watcher.toNil
  rw [skipToNil_sent, skipToNil_cache]
  exact h c

theorem entries_induction {Q : Entries → Prop} (hnil : Q .nil)
    (hcons : ∀ name node rest, Q rest → Q (.cons name node rest)) : ∀ es, Q es :=
  (tree_induction (P := fun _ => True) (fun _ _ _ => trivial) (fun _ _ _ _ => trivial) hnil
    (fun name node rest _ h => hcons name node rest h)).2

theorem removed_sent (dirname : String) (items : Entries) :
    ∀ c, ∀ x ∈ (handleRemovedItemsFromDirectory c dirname items).sent,
      ∃ e ∈ items.toList, e.2.opened = OpenResult.notExist ∧ x = msgRemoved (Join dirname e.1) := by
  refine entries_induction (Q := fun items => ∀ c, ∀ x ∈
    (handleRemovedItemsFromDirectory c dirname items).sent,
      ∃ e ∈ items.toList, e.2.opened = OpenResult.notExist ∧ x = msgRemoved (Join dirname e.1))
    ?_ ?_ items
  · intro c x hx
    simp [handleRemovedItemsFromDirectory, Outcome.pure] at hx
  · intro name node rest ih c x hx
    unfold handleRemovedItemsFromDirectory at hx
    cases ho : node.opened with
    | ok =>
      simp only [ho] at hx
      obtain ⟨e, he, h1, h2⟩ := ih c x hx
      exact ⟨e, by simp [Entries.toList, he], h1, h2⟩
    | notExist =>
      simp only [ho, List.mem_cons] at hx
      rcases hx with hx | hx
      · exact ⟨(name, node), by simp [Entries.toList], ho, hx⟩
      · obtain ⟨e, he, h1, h2⟩ := ih _ x hx
        exact ⟨e, by simp [Entries.toList, he], h1, h2⟩
    | permission =>
      simp [ho] at hx

theorem removed_cache (dirname : String) (items : Entries) :
    ∀ c q, q ≠ dirname → (handleRemovedItemsFromDirectory c dirname items).cache q = c q := by
  refine entries_induction (Q := fun items => ∀ c q, q ≠ dirname →
    (handleRemovedItemsFromDirectory c dirname items).cache q = c q) ?_ ?_ items
  · intro c q _
    simp [handleRemovedItemsFromDirectory, Outcome.pure]
  · intro name node rest ih c q hq
    unfold handleRemovedItemsFromDirectory
    cases ho : node.opened with
    | ok => simpa [ho] using ih c q hq
    | notExist =>
      simp only [ho]
      rw [ih _ q hq]
      simp [removeCacheEntry, hq]
    | permission => simp [ho]

theorem Traced.checkDir_traced (path : String) (s t : Nat) (items : Entries) (info : FileInfo) :
    Traced [(path, .dir s t items)] (checkDir path info items) := by
  intro c
  unfold Watcher.checkDir checkForDirectoryChanges
  cases hc : c path with
  | none =>
    simp only [handleNewDirectory]
    refine ⟨fun x hx => ?_, fun q hq => ?_⟩
    · refine ⟨_, List.mem_singleton_self _, ?_⟩
      simp only [List.mem_singleton] at hx
      simp [Emits, hx]
    · refine ⟨_, List.mem_singleton_self _, ?_⟩
      by_contra hne
      apply hq
      have : q ≠ path := fun h => hne h.symm
      simp [addCacheEntry, this]
  | some v =>
    simp only [handleExistingDirectory]
    refine ⟨fun x hx => ?_, fun q hq => ?_⟩
    · refine ⟨_, List.mem_singleton_self _, ?_⟩
      obtain ⟨e, he, h1, h2⟩ := removed_sent path items c x hx
      exact Or.inr ⟨e, he, h1, h2⟩
    · refine ⟨_, List.mem_singleton_self _, ?_⟩
      by_contra hne
      exact hq (removed_cache path items c q (fun h => hne h.symm))

theorem isFileChanged_msg (c : Cache) (path : String) (info : FileInfo) :
    (isFileChanged c path info).2 = msgNewFile path
    ∨ (isFileChanged c path info).2 = msgModifiedFile path
    ∨ (isFileChanged c path info).1 = false := by
  unfold isFileChanged
  cases c path with
  | none => simp
  | some v =>
    by_cases h : info.size = v.size <;> simp [h]

theorem Traced.fnFile_traced (m : DirectoryMonitor) (dirname path : String) (s t : Nat)
    (o : OpenResult) (nested : Cache → Outcome) (h : isExcluded m path = false) :
    Traced [(path, .file s t o)] (fn m dirname path (.file s t o) nested) := by
  intro c
  rw [fn_file _ _ _ _ _ _ _ _ h]
  by_cases hc : isIncluded m path = true ∧ (isFileChanged c path ⟨false, s, t⟩).1 = true
  · rw [if_pos hc]
    refine ⟨fun x hx => ?_, fun q hq => ?_⟩
    · refine ⟨_, List.mem_singleton_self _, ?_⟩
      simp only [List.mem_singleton] at hx
      rcases isFileChanged_msg c path ⟨false, s, t⟩ with h1 | h1 | h1
      · exact Or.inl (hx.trans h1)
      · exact Or.inr (hx.trans h1)
      · rw [hc.2] at h1
        exact absurd h1 (by simp)
    · refine ⟨_, List.mem_singleton_self _, ?_⟩
      by_contra hne
      apply hq
      have : q ≠ path := fun h => hne h.symm
      simp [addCacheEntry, removeCacheEntry, this]
  · rw [if_neg hc]
    simp

/-- Every message of a walk and every change of the cache comes from a node
that is reached: one that is not excluded and lies under no excluded
directory. -/
theorem walk_traced (m : DirectoryMonitor) :
    (∀ n dirname path, Traced (reach m path n) (walk m dirname path n))
    ∧ (∀ es dirname dir, Traced (reachEntries m dir es) (walkEntries m dirname dir es)) := by
  apply tree_induction
  · intro s t o dirname path
    by_cases h : isExcluded m path = true
    · intro c
      rw [walk_file, fn_excluded _ _ _ _ _ _ h]
      simp
    · have h2 : isExcluded m path = false := by simpa using h
      have hw : walk m dirname path (.file s t o)
          = fn m dirname path (.file s t o) Outcome.pure := by
        funext c; rw [walk_file]
      have hr : reach m path (.file s t o) = [(path, .file s t o)] := by simp [reach, h2]
      rw [hw, hr]
      exact Traced.fnFile_traced m dirname path s t o _ h2
  · intro s t items ih dirname path
    by_cases h : isExcluded m path = true
    · intro c
      rw [walk_dir_excluded _ _ _ _ _ _ _ h]
      simp
    · have h2 : isExcluded m path = false := by simpa using h
      have hr : reach m path (.dir s t items)
          = (path, .dir s t items) :: reachEntries m path items := by simp [reach, h2]
      rw [walk_dir_shape _ _ _ _ _ _ h2, hr]
      have hck := Traced.checkDir_traced path s t items ⟨true, s, t⟩
      have hnest : Traced ((path, Node.dir s t items) :: reachEntries m path items)
          (if m.NoTraverse = false ∧ dirname ≠ path then
            toNil (thenDo (visiting path (checkDir path ⟨true, s, t⟩ items))
              (walkEntries m path path items))
           else Outcome.pure) := by
        split
        · exact ((hck.visiting_traced path).thenDo_traced (ih path path)).toNil_traced
        · exact Traced.pure_traced.mono (by simp)
      refine (((hnest.thenDo_traced hck).visiting_traced path).thenDo_traced (ih dirname path)).mono ?_
      intro e he
      simp only [List.mem_append, List.mem_cons, List.mem_singleton] at he ⊢
      tauto
  · intro dirname dir c
    rw [walkEntries_nil]
    simp [Outcome.pure]
  · intro name node rest ihn ihr dirname dir
    rw [walkEntries_cons_shape]
    have hr : reachEntries m dir (.cons name node rest)
        = reach m (Join dir name) node ++ reachEntries m dir rest := by simp [reachEntries]
    rw [hr]
    exact Traced.thenNext_traced _ (ihn dirname (Join dir name)) (ihr dirname dir)

/-! ## The texts of the messages -/

theorem data_get_head (a p : String) (i : Nat) (h : i < a.data.length) :
    (a ++ p).data[i]? = a.data[i]? := by
  rw [String.data_append, List.getElem?_append_left h]

theorem msgNewFile_chars (p : String) :
    (msgNewFile p).data[0]? = some 'F' ∧ (msgNewFile p).data[6]? = some 'n'
      ∧ (msgNewFile p).data[10]? = some 'f' := by
  unfold msgNewFile
  refine ⟨?_, ?_, ?_⟩ <;> rw [data_get_head _ _ _ (by decide)] <;> decide

theorem msgModifiedFile_chars (p : String) :
    (msgModifiedFile p).data[0]? = some 'F' ∧ (msgModifiedFile p).data[6]? = some 'm' := by
  unfold msgModifiedFile
  refine ⟨?_, ?_⟩ <;> rw [data_get_head _ _ _ (by decide)] <;> decide

theorem msgNewDirectory_chars (p : String) :
    (msgNewDirectory p).data[0]? = some 'F' ∧ (msgNewDirectory p).data[6]? = some 'n'
      ∧ (msgNewDirectory p).data[10]? = some 'd' := by
  unfold msgNewDirectory
  refine ⟨?_, ?_, ?_⟩ <;> rw [data_get_head _ _ _ (by decide)] <;> decide

theorem msgRemoved_chars (p : String) :
    (msgRemoved p).data[0]? = some 'F' ∧ (msgRemoved p).data[6]? = some 'r' := by
  unfold msgRemoved
  refine ⟨?_, ?_⟩ <;> rw [data_get_head _ _ _ (by decide)] <;> decide

theorem append_left_inj (a p q : String) (h : a ++ p = a ++ q) : p = q := by
  have h1 := congrArg String.data h
  rw [String.data_append, String.data_append] at h1
  exact String.ext (List.append_cancel_left h1)

theorem append_right_inj (a p q : String) (h : p ++ a = q ++ a) : p = q := by
  have h1 := congrArg String.data h
  rw [String.data_append, String.data_append] at h1
  exact String.ext (List.append_cancel_right h1)

theorem msgNewFile_inj {p q : String} (h : msgNewFile p = msgNewFile q) : p = q :=
  append_left_inj _ _ _ h

theorem msgModifiedFile_inj {p q : String} (h : msgModifiedFile p = msgModifiedFile q) :
    p = q :=
  append_left_inj _ _ _ h

theorem msgNewDirectory_inj {p q : String} (h : msgNewDirectory p = msgNewDirectory q) :
    p = q :=
  append_left_inj _ _ _ h

theorem msgRemoved_inj {p q : String} (h : msgRemoved p = msgRemoved q) : p = q := by
  unfold msgRemoved at h
  exact append_left_inj _ _ _ (append_right_inj _ _ _ (append_left_inj _ _ _ h))

theorem msgNewFile_ne_modified (p q : String) : msgNewFile p ≠ msgModifiedFile q := by
  intro h
  have h1 := (msgNewFile_chars p).2.1
  rw [h, (msgModifiedFile_chars q).2] at h1
  exact absurd h1 (by decide)

theorem msgNewFile_ne_directory (p q : String) : msgNewFile p ≠ msgNewDirectory q := by
  intro h
  have h1 := (msgNewFile_chars p).2.2
  rw [h, (msgNewDirectory_chars q).2.2] at h1
  exact absurd h1 (by decide)

theorem msgNewFile_ne_removed (p q : String) : msgNewFile p ≠ msgRemoved q := by
  intro h
  have h1 := (msgNewFile_chars p).2.1
  rw [h, (msgRemoved_chars q).2] at h1
  exact absurd h1 (by decide)

theorem msgModifiedFile_ne_directory (p q : String) :
    msgModifiedFile p ≠ msgNewDirectory q := by
  intro h
  have h1 := (msgModifiedFile_chars p).2
  rw [h, (msgNewDirectory_chars q).2.1] at h1
  exact absurd h1 (by decide)

theorem msgModifiedFile_ne_removed (p q : String) : msgModifiedFile p ≠ msgRemoved q := by
  intro h
  have h1 := (msgModifiedFile_chars p).2
  rw [h, (msgRemoved_chars q).2] at h1
  exact absurd h1 (by decide)

theorem msgNewDirectory_ne_removed (p q : String) : msgNewDirectory p ≠ msgRemoved q := by
  intro h
  have h1 := (msgNewDirectory_chars p).2.1
  rw [h, (msgRemoved_chars q).2] at h1
  exact absurd h1 (by decide)

theorem nonSentinel_of_first_char (x : String) (h : x.data[0]? = some 'F') : NonSentinel x := by
  constructor
  · intro hx
    rw [hx] at h
    exact absurd h (by decide)
  · intro hx
    rw [hx] at h
    exact absurd h (by decide)

theorem IsChangeMessage.nonSentinel {x : String} (h : IsChangeMessage x) : NonSentinel x := by
  obtain ⟨p, h | h | h | h⟩ := h
  · exact nonSentinel_of_first_char x (h ▸ (msgNewFile_chars p).1)
  · exact nonSentinel_of_first_char x (h ▸ (msgModifiedFile_chars p).1)
  · exact nonSentinel_of_first_char x (h ▸ (msgNewDirectory_chars p).1)
  · exact nonSentinel_of_first_char x (h ▸ (msgRemoved_chars p).1)

theorem Emits.isChangeMessage {path : String} {node : Node} {x : String}
    (h : Emits path node x) : IsChangeMessage x := by
  cases node with
  | file s t o =>
    rcases h with h | h
    · exact ⟨path, Or.inl h⟩
    · exact ⟨path, Or.inr (Or.inl h)⟩
  | dir s t items =>
    rcases h with h | ⟨e, _, _, h⟩
    · exact ⟨path, Or.inr (Or.inr (Or.inl h))⟩
    · exact ⟨_, Or.inr (Or.inr (Or.inr h))⟩

theorem walkDirectoryForChanges_sent (m : DirectoryMonitor) (dirname : String) (root : Node)
    (c : Cache) :
    ∀ x ∈ (walkDirectoryForChanges m dirname root c).sent, IsChangeMessage x := by
  intro x hx
  unfold walkDirectoryForChanges at hx
  rw [skipToNil_sent] at hx
  obtain ⟨e, _, he⟩ := ((walk_traced m).1 root dirname dirname c).1 x hx
  exact he.isChangeMessage

/-! ## The cycles the monitor sends -/

theorem monitorLoop_cycles (m : DirectoryMonitor) (trees : List Node) :
    ∀ c, ∃ cycles : List (List String),
      monitorLoop m c trees = streamOf cycles
      ∧ (∀ msgs ∈ cycles, ∀ x ∈ msgs, IsChangeMessage x ∧ NonSentinel x)
      ∧ cycles.length ≤ trees.length
      ∧ (trees ≠ [] → cycles ≠ []) := by
  induction trees with
  | nil =>
    intro c
    exact ⟨[], by simp [monitorLoop, streamOf], by simp, by simp, by simp⟩
  | cons root later ih =>
    intro c
    have hsent := walkDirectoryForChanges_sent m m.Dir root c
    have hcyc : ∀ x ∈ (walkDirectoryForChanges m m.Dir root c).sent,
        IsChangeMessage x ∧ NonSentinel x := fun x hx => ⟨hsent x hx, (hsent x hx).nonSentinel⟩
    obtain ⟨cycles, h1, h2, h3, _⟩ := ih (walkDirectoryForChanges m m.Dir root c).cache
    have hgo : ∃ cs : List (List String),
        (match (walkDirectoryForChanges m m.Dir root c).err with
          | none => monitorLoop m (walkDirectoryForChanges m m.Dir root c).cache later
          | some Error.SkipDir =>
            monitorLoop m (walkDirectoryForChanges m m.Dir root c).cache later
          | some _ => []) = streamOf cs
        ∧ (∀ msgs ∈ cs, ∀ x ∈ msgs, IsChangeMessage x ∧ NonSentinel x)
        ∧ cs.length ≤ later.length := by
      cases (walkDirectoryForChanges m m.Dir root c).err with
      | none => exact ⟨cycles, h1, h2, h3⟩
      | some e =>
        cases e with
        | SkipDir => exact ⟨cycles, h1, h2, h3⟩
        | Permission p => exact ⟨[], by simp [streamOf], by simp, by simp⟩
    obtain ⟨cs, hc1, hc2, hc3⟩ := hgo
    refine ⟨(walkDirectoryForChanges m m.Dir root c).sent :: cs, ?_, ?_, ?_, by simp⟩
    · simp only [monitorLoop, streamOf, cycleEntries]
      rw [hc1]
      simp
    · intro msgs hm
      rcases List.mem_cons.1 hm with hm | hm
      · rw [hm]; exact hcyc
      · exact hc2 msgs hm
    · simpa using hc3

/-- C7: whatever trees the loop of the monitor finds at its turns and whether
or not a walk fails, the values it sends on the channel are a concatenation of
cycles, each the start token, then change messages, then the end token (the
end token is sent before the loop looks at the error of the walk); no message
of a walk equals either token; there is at most one cycle for each turn and at
least one when the loop runs. -/
theorem monitor_sends_cycles (m : DirectoryMonitor) (first : Node) (trees : List Node) :
    ∃ cycles : List (List String),
      StartDirectoryMonitor m first trees = streamOf cycles
      ∧ (∀ msgs ∈ cycles, ∀ x ∈ msgs, IsChangeMessage x ∧ NonSentinel x)
      ∧ cycles.length ≤ trees.length
      ∧ (trees ≠ [] → cycles ≠ []) :=
  monitorLoop_cycles m trees _

theorem monitor_sends_cycles_witness :
    ∃ cycles : List (List String),
      StartDirectoryMonitor ⟨"root", false, 5, "*", ""⟩
          (.dir 0 0 (.cons "a" (.file 1 0 .ok) .nil))
          [.dir 0 0 (.cons "a" (.file 2 0 .ok) .nil),
           .dir 0 0 (.cons "a" (.file 2 0 .permission) .nil)]
        = streamOf cycles
      ∧ (∀ msgs ∈ cycles, ∀ x ∈ msgs, IsChangeMessage x ∧ NonSentinel x)
      ∧ cycles.length ≤ 2
      ∧ (([.dir 0 0 (.cons "a" (.file 2 0 .ok) .nil),
           .dir 0 0 (.cons "a" (.file 2 0 .permission) .nil)] : List Node) ≠ []
          → cycles ≠ []) :=
  monitor_sends_cycles _ _ _

/-! ## Walks on given trees -/

/-- C5, at a failing input: with `NoTraverse` true the walk of a root that
holds the directory `sub` with the file `a.txt` still calls the walk function
on `root/sub/a.txt`, sends a message for it and caches it, because
`filepath.Walk` descends on its own and the flag only guards the nested
call. -/
theorem noTraverse_walk_descends :
    (walkDirectoryForChanges ⟨"root", true, 5, "*", ""⟩ "root"
        (.dir 0 0 (.cons "sub" (.dir 0 0 (.cons "a.txt" (.file 3 0 .ok) .nil)) .nil))
        emptyCache).sent
      = ["Found new directory: root", "Found new directory: root/sub",
          "Found new file: root/sub/a.txt"]
    ∧ (walkDirectoryForChanges ⟨"root", true, 5, "*", ""⟩ "root"
        (.dir 0 0 (.cons "sub" (.dir 0 0 (.cons "a.txt" (.file 3 0 .ok) .nil)) .nil))
        emptyCache).visited
      = ["root", "root/sub", "root/sub/a.txt"]
    ∧ (walkDirectoryForChanges ⟨"root", true, 5, "*", ""⟩ "root"
        (.dir 0 0 (.cons "sub" (.dir 0 0 (.cons "a.txt" (.file 3 0 .ok) .nil)) .nil))
        emptyCache).cache "root/sub/a.txt" = some ⟨false, 3, 0⟩ := by
  decide

/-- C4, at a failing input: the cache is built on a root that holds the files
`c` and `k`, then `c` is removed.  The check of the cached root lists only
`k`, so it sends nothing and keeps the entry of the root, and the whole walk
sends nothing and keeps the entries of the root and of `c`. -/
theorem removed_child_not_reported :
    (buildInitialCache ⟨"root", false, 5, "*", ""⟩
        (.dir 0 0 (.cons "c" (.file 1 0 .ok) (.cons "k" (.file 2 0 .ok) .nil)))
        emptyCache) "root" = some ⟨true, 0, 0⟩
    ∧ (checkForDirectoryChanges
        (buildInitialCache ⟨"root", false, 5, "*", ""⟩
          (.dir 0 0 (.cons "c" (.file 1 0 .ok) (.cons "k" (.file 2 0 .ok) .nil))) emptyCache)
        "root" ⟨true, 0, 1⟩ (.cons "k" (.file 2 0 .ok) .nil)).sent = []
    ∧ (checkForDirectoryChanges
        (buildInitialCache ⟨"root", false, 5, "*", ""⟩
          (.dir 0 0 (.cons "c" (.file 1 0 .ok) (.cons "k" (.file 2 0 .ok) .nil))) emptyCache)
        "root" ⟨true, 0, 1⟩ (.cons "k" (.file 2 0 .ok) .nil)).cache "root" = some ⟨true, 0, 0⟩
    ∧ (walkDirectoryForChanges ⟨"root", false, 5, "*", ""⟩ "root"
        (.dir 0 1 (.cons "k" (.file 2 0 .ok) .nil))
        (buildInitialCache ⟨"root", false, 5, "*", ""⟩
          (.dir 0 0 (.cons "c" (.file 1 0 .ok) (.cons "k" (.file 2 0 .ok) .nil)))
          emptyCache)).sent = []
    ∧ (walkDirectoryForChanges ⟨"root", false, 5, "*", ""⟩ "root"
        (.dir 0 1 (.cons "k" (.file 2 0 .ok) .nil))
        (buildInitialCache ⟨"root", false, 5, "*", ""⟩
          (.dir 0 0 (.cons "c" (.file 1 0 .ok) (.cons "k" (.file 2 0 .ok) .nil)))
          emptyCache)).cache "root" = some ⟨true, 0, 0⟩
    ∧ (walkDirectoryForChanges ⟨"root", false, 5, "*", ""⟩ "root"
        (.dir 0 1 (.cons "k" (.file 2 0 .ok) .nil))
        (buildInitialCache ⟨"root", false, 5, "*", ""⟩
          (.dir 0 0 (.cons "c" (.file 1 0 .ok) (.cons "k" (.file 2 0 .ok) .nil)))
          emptyCache)).cache "root/c" = some ⟨false, 1, 0⟩ := by
  decide

/-- C3, at a failing input: the file `f.txt` is added next to the excluded file
`a.bak`, which is listed before it.  It matches the include pattern and no
exclude pattern and the root is not excluded, yet the walk sends no message
for it and does not cache it: `SkipDir` returned for `a.bak` ends the walk of
the directory. -/
theorem new_file_after_excluded_file_missed :
    isIncluded ⟨"root", false, 5, "*", "*.bak"⟩ "root/f.txt" = true
    ∧ isExcluded ⟨"root", false, 5, "*", "*.bak"⟩ "root/f.txt" = false
    ∧ isExcluded ⟨"root", false, 5, "*", "*.bak"⟩ "root" = false
    ∧ (walkDirectoryForChanges ⟨"root", false, 5, "*", "*.bak"⟩ "root"
        (.dir 0 1 (.cons "a.bak" (.file 1 0 .ok) (.cons "f.txt" (.file 2 1 .ok) .nil)))
        (buildInitialCache ⟨"root", false, 5, "*", "*.bak"⟩
          (.dir 0 0 (.cons "a.bak" (.file 1 0 .ok) .nil)) emptyCache)).sent = []
    ∧ (walkDirectoryForChanges ⟨"root", false, 5, "*", "*.bak"⟩ "root"
        (.dir 0 1 (.cons "a.bak" (.file 1 0 .ok) (.cons "f.txt" (.file 2 1 .ok) .nil)))
        (buildInitialCache ⟨"root", false, 5, "*", "*.bak"⟩
          (.dir 0 0 (.cons "a.bak" (.file 1 0 .ok) .nil)) emptyCache)).cache "root/f.txt"
        = none
    ∧ (walkDirectoryForChanges ⟨"root", false, 5, "*", "*.bak"⟩ "root"
        (.dir 0 1 (.cons "a.bak" (.file 1 0 .ok) (.cons "f.txt" (.file 2 1 .ok) .nil)))
        (buildInitialCache ⟨"root", false, 5, "*", "*.bak"⟩
          (.dir 0 0 (.cons "a.bak" (.file 1 0 .ok) .nil)) emptyCache)).err = none := by
  decide

/-- C2, refuted as stated: the root holds one link whose target is missing.
After the initial cache is built on it, the next walk of the same tree sends a
removed-item message for the link and evicts the entry of the root. -/
theorem unmodified_tree_with_dead_link_reports :
    (buildInitialCache ⟨"root", false, 5, "*", ""⟩
        (.dir 0 0 (.cons "link" (.file 4 0 .notExist) .nil)) emptyCache) "root"
      = some ⟨true, 0, 0⟩
    ∧ (walkDirectoryForChanges ⟨"root", false, 5, "*", ""⟩ "root"
        (.dir 0 0 (.cons "link" (.file 4 0 .notExist) .nil))
        (buildInitialCache ⟨"root", false, 5, "*", ""⟩
          (.dir 0 0 (.cons "link" (.file 4 0 .notExist) .nil)) emptyCache)).sent
      = ["Found removed file or directory: open root/link: no such file or directory"]
    ∧ (walkDirectoryForChanges ⟨"root", false, 5, "*", ""⟩ "root"
        (.dir 0 0 (.cons "link" (.file 4 0 .notExist) .nil))
        (buildInitialCache ⟨"root", false, 5, "*", ""⟩
          (.dir 0 0 (.cons "link" (.file 4 0 .notExist) .nil)) emptyCache)).cache "root"
      = none := by
  decide

/-- C6, refuted as stated: the basename of the directory `build` matches the
exclude pattern `build`, but the malformed pattern `[` stands before it in the
list, so `isExcluded` is false for the directory and the walk sends messages
for it and for the file beneath it and caches both. -/
theorem matching_directory_not_pruned :
    "build" ∈ Split "[,build"
    ∧ Match "build" (Base "root/build") = (true, false)
    ∧ isExcluded ⟨"root", false, 5, "*", "[,build"⟩ "root/build" = false
    ∧ (walkDirectoryForChanges ⟨"root", false, 5, "*", "[,build"⟩ "root"
        (.dir 0 0 (.cons "build" (.dir 0 0 (.cons "x.o" (.file 3 0 .ok) .nil)) .nil))
        emptyCache).sent
      = ["Found new directory: root", "Found new directory: root/build",
          "Found new file: root/build/x.o"]
    ∧ (walkDirectoryForChanges ⟨"root", false, 5, "*", "[,build"⟩ "root"
        (.dir 0 0 (.cons "build" (.dir 0 0 (.cons "x.o" (.file 3 0 .ok) .nil)) .nil))
        emptyCache).cache "root/build/x.o" = some ⟨false, 3, 0⟩ := by
  decide

/-- C9, refuted as stated: the root holds one link whose target is missing; the
link passes both filters, is cached with its size and its size has not
changed.  The walk visits it and sends a removed-item message that names it,
from the check of the root. -/
theorem cached_dead_link_gets_message :
    isIncluded ⟨"root", false, 5, "*", ""⟩ "root/link" = true
    ∧ isExcluded ⟨"root", false, 5, "*", ""⟩ "root/link" = false
    ∧ (buildInitialCache ⟨"root", false, 5, "*", ""⟩
        (.dir 0 0 (.cons "link" (.file 4 0 .notExist) .nil)) emptyCache) "root/link"
      = some ⟨false, 4, 0⟩
    ∧ "root/link" ∈ (walkDirectoryForChanges ⟨"root", false, 5, "*", ""⟩ "root"
        (.dir 0 0 (.cons "link" (.file 4 1 .notExist) .nil))
        (buildInitialCache ⟨"root", false, 5, "*", ""⟩
          (.dir 0 0 (.cons "link" (.file 4 0 .notExist) .nil)) emptyCache)).visited
    ∧ msgRemoved "root/link" ∈ (walkDirectoryForChanges ⟨"root", false, 5, "*", ""⟩ "root"
        (.dir 0 0 (.cons "link" (.file 4 1 .notExist) .nil))
        (buildInitialCache ⟨"root", false, 5, "*", ""⟩
          (.dir 0 0 (.cons "link" (.file 4 0 .notExist) .nil)) emptyCache)).sent
    ∧ Names "root/link" (msgRemoved "root/link") := by
  refine ⟨by decide, by decide, by decide, by decide, by decide, ?_⟩
  exact Or.inr (Or.inr (Or.inr rfl))

/-! ## The nodes of a tree and their paths -/

theorem nodes_self (n : Node) (p : String) : (p, n) ∈ n.nodes p := by
  cases n <;> simp [Node.nodes]

theorem nodes_trans :
    (∀ n p e, e ∈ Node.nodes p n → ∀ e2 ∈ e.2.nodes e.1, e2 ∈ Node.nodes p n)
    ∧ (∀ es d e, e ∈ Entries.nodes d es → ∀ e2 ∈ e.2.nodes e.1, e2 ∈ Entries.nodes d es) := by
  apply tree_induction
  · intro s t o p e he e2 he2
    simp only [Node.nodes, List.mem_singleton] at he
    rw [he] at he2
    exact he2
  · intro s t items ih p e he e2 he2
    simp only [Node.nodes, List.mem_cons] at he
    rcases he with he | he
    · rw [he] at he2
      exact he2
    · simp only [Node.nodes, List.mem_cons]
      exact Or.inr (ih p e he e2 he2)
  · intro d e he
    simp [Entries.nodes] at he
  · intro name node rest ihn ihr d e he e2 he2
    simp only [Entries.nodes, List.mem_append] at he ⊢
    rcases he with he | he
    · exact Or.inl (ihn _ e he e2 he2)
    · exact Or.inr (ihr d e he e2 he2)

theorem child_mem_nodes (d : String) (items : Entries) :
    ∀ e ∈ items.toList, (Join d e.1, e.2) ∈ Entries.nodes d items := by
  refine entries_induction (Q := fun items => ∀ e ∈ items.toList,
    (Join d e.1, e.2) ∈ Entries.nodes d items) ?_ ?_ items
  · intro e he
    simp [Entries.toList] at he
  · intro name node rest ih e he
    simp only [Entries.toList, List.mem_cons] at he
    simp only [Entries.nodes, List.mem_append]
    rcases he with he | he
    · rw [he]
      exact Or.inl (nodes_self _ _)
    · exact Or.inr (ih e he)

theorem mem_removedPaths (d : String) (items : Entries) (q : String) :
    q ∈ removedPaths d items ↔
      ∃ e ∈ items.toList, e.2.opened = OpenResult.notExist ∧ q = Join d e.1 := by
  refine entries_induction (Q := fun items => q ∈ removedPaths d items ↔
      ∃ e ∈ items.toList, e.2.opened = OpenResult.notExist ∧ q = Join d e.1) ?_ ?_ items
  · simp [removedPaths, Entries.toList]
  · intro name node rest ih
    simp only [removedPaths, List.mem_append, Entries.toList, List.mem_cons, ih]
    constructor
    · rintro (h | ⟨e, he, h1, h2⟩)
      · by_cases ho : node.opened = OpenResult.notExist
        · simp only [ho, if_true, List.mem_singleton] at h
          exact ⟨(name, node), Or.inl rfl, ho, h⟩
        · simp [ho] at h
      · exact ⟨e, Or.inr he, h1, h2⟩
    · rintro ⟨e, he | he, h1, h2⟩
      · left
        rw [he] at h1 h2
        simp only at h1 h2
        simp [h1, h2]
      · exact Or.inr ⟨e, he, h1, h2⟩

theorem removedPaths_subset (d : String) (items : Entries) (q : String)
    (h : q ∈ removedPaths d items) : q ∈ (Entries.nodes d items).map Prod.fst := by
  obtain ⟨e, he, _, hq⟩ := (mem_removedPaths d items q).1 h
  exact List.mem_map.2 ⟨(Join d e.1, e.2), child_mem_nodes d items e he, hq.symm⟩

theorem touched_subset (m : DirectoryMonitor) :
    (∀ n p q, q ∈ touched m p n → q ∈ (Node.nodes p n).map Prod.fst)
    ∧ (∀ es d q, q ∈ touchedEntries m d es → q ∈ (Entries.nodes d es).map Prod.fst) := by
  apply tree_induction
  · intro s t o p q hq
    by_cases h : isExcluded m p = true
    · simp [touched, h] at hq
    · simp only [touched, h, if_false, List.mem_singleton, Bool.false_eq_true] at hq
      simp [Node.nodes, hq]
  · intro s t items ih p q hq
    by_cases h : isExcluded m p = true
    · simp [touched, h] at hq
    · simp only [touched, h, if_false, List.mem_cons, List.mem_append,
        Bool.false_eq_true] at hq
      simp only [Node.nodes, List.map_cons, List.mem_cons]
      rcases hq with hq | hq | hq
      · exact Or.inl hq
      · exact Or.inr (removedPaths_subset p items q hq)
      · exact Or.inr (ih p q hq)
  · intro d q hq
    simp [touchedEntries] at hq
  · intro name node rest ihn ihr d q hq
    simp only [touchedEntries, List.mem_append] at hq
    simp only [Entries.nodes, List.map_append, List.mem_append]
    rcases hq with hq | hq
    · exact Or.inl (ihn _ q hq)
    · exact Or.inr (ihr d q hq)

theorem reach_touched (m : DirectoryMonitor) :
    (∀ n p e, e ∈ reach m p n → e.1 ∈ touched m p n
        ∧ ∀ s t items, e.2 = Node.dir s t items →
            ∀ q ∈ removedPaths e.1 items, q ∈ touched m p n)
    ∧ (∀ es d e, e ∈ reachEntries m d es → e.1 ∈ touchedEntries m d es
        ∧ ∀ s t items, e.2 = Node.dir s t items →
            ∀ q ∈ removedPaths e.1 items, q ∈ touchedEntries m d es) := by
  apply tree_induction
  · intro s t o p e he
    by_cases h : isExcluded m p = true
    · simp [reach, h] at he
    · simp only [reach, h, if_false, List.mem_singleton, Bool.false_eq_true] at he
      rw [he]
      refine ⟨by simp [touched, h], ?_⟩
      intro s2 t2 items hd
      simp at hd
  · intro s t items ih p e he
    by_cases h : isExcluded m p = true
    · simp [reach, h] at he
    · simp only [reach, h, if_false, List.mem_cons, Bool.false_eq_true] at he
      rcases he with he | he
      · rw [he]
        refine ⟨by simp [touched, h], ?_⟩
        intro s2 t2 items2 hd q hq
        simp only [Node.dir.injEq] at hd
        rw [← hd.2.2] at hq
        simp [touched, h, hq]
      · obtain ⟨h1, h2⟩ := ih p e he
        refine ⟨by simp [touched, h, h1], ?_⟩
        intro s2 t2 items2 hd q hq
        have := h2 s2 t2 items2 hd q hq
        simp [touched, h, this]
  · intro d e he
    simp [reachEntries] at he
  · intro name node rest ihn ihr d e he
    simp only [reachEntries, List.mem_append] at he
    rcases he with he | he
    · obtain ⟨h1, h2⟩ := ihn _ e he
      refine ⟨by simp [touchedEntries, h1], ?_⟩
      intro s2 t2 items2 hd q hq
      have := h2 s2 t2 items2 hd q hq
      simp [touchedEntries, this]
    · obtain ⟨h1, h2⟩ := ihr d e he
      refine ⟨by simp [touchedEntries, h1], ?_⟩
      intro s2 t2 items2 hd q hq
      have := h2 s2 t2 items2 hd q hq
      simp [touchedEntries, this]

/-- Every message of a walk names a touched path and the cache changes at
touched paths only. -/
theorem walk_touched (m : DirectoryMonitor) (dirname path : String) (n : Node) (c : Cache) :
    (∀ x ∈ (walk m dirname path n c).sent, ∃ q ∈ touched m path n, Names q x)
    ∧ (∀ q, (walk m dirname path n c).cache q ≠ c q → q ∈ touched m path n) := by
  have ht := (walk_traced m).1 n dirname path c
  refine ⟨fun x hx => ?_, fun q hq => ?_⟩
  · obtain ⟨e, he, hem⟩ := ht.1 x hx
    obtain ⟨h1, h2⟩ := (reach_touched m).1 n path e he
    obtain ⟨p, k⟩ := e
    cases k with
    | file s t o =>
      rcases hem with hem | hem
      · exact ⟨p, h1, Or.inl hem⟩
      · exact ⟨p, h1, Or.inr (Or.inl hem)⟩
    | dir s t items =>
      rcases hem with hem | ⟨e2, he2, ho, hx2⟩
      · exact ⟨p, h1, Or.inr (Or.inr (Or.inl hem))⟩
      · refine ⟨Join p e2.1, h2 s t items rfl _ ?_, Or.inr (Or.inr (Or.inr hx2))⟩
        exact (mem_removedPaths p items _).2 ⟨e2, he2, ho, rfl⟩
  · obtain ⟨e, he, heq⟩ := ht.2 q hq
    rw [← heq]
    exact ((reach_touched m).1 n path e he).1

theorem Names.inj {q q2 x : String} (h1 : Names q x) (h2 : Names q2 x) : q = q2 := by
  rcases h1 with h1 | h1 | h1 | h1 <;> rcases h2 with h2 | h2 | h2 | h2 <;> rw [h1] at h2
  · exact msgNewFile_inj h2
  · exact absurd h2 (msgNewFile_ne_modified _ _)
  · exact absurd h2 (msgNewFile_ne_directory _ _)
  · exact absurd h2 (msgNewFile_ne_removed _ _)
  · exact absurd h2.symm (msgNewFile_ne_modified _ _)
  · exact msgModifiedFile_inj h2
  · exact absurd h2 (msgModifiedFile_ne_directory _ _)
  · exact absurd h2 (msgModifiedFile_ne_removed _ _)
  · exact absurd h2.symm (msgNewFile_ne_directory _ _)
  · exact absurd h2.symm (msgModifiedFile_ne_directory _ _)
  · exact msgNewDirectory_inj h2
  · exact absurd h2 (msgNewDirectory_ne_removed _ _)
  · exact absurd h2.symm (msgNewFile_ne_removed _ _)
  · exact absurd h2.symm (msgModifiedFile_ne_removed _ _)
  · exact absurd h2.symm (msgNewDirectory_ne_removed _ _)
  · exact msgRemoved_inj h2

/-! ## An excluded directory is pruned -/

theorem opened_notExist_file (n : Node) (h : n.opened = OpenResult.notExist) :
    ∃ s t o, n = Node.file s t o := by
  cases n with
  | file s t o => exact ⟨s, t, o, rfl⟩
  | dir s t items => simp [Node.opened] at h

theorem excluded_subtree_untouched (m : DirectoryMonitor) :
    (∀ n p, ((Node.nodes p n).map Prod.fst).Nodup →
      ∀ pd s t items, (pd, Node.dir s t items) ∈ Node.nodes p n → isExcluded m pd = true →
        ∀ e ∈ (Node.dir s t items).nodes pd, e.1 ∉ touched m p n)
    ∧ (∀ es d, ((Entries.nodes d es).map Prod.fst).Nodup →
      ∀ pd s t items, (pd, Node.dir s t items) ∈ Entries.nodes d es →
        isExcluded m pd = true →
        ∀ e ∈ (Node.dir s t items).nodes pd,
          e.1 ∉ touchedEntries m d es ∧ e.1 ∉ removedPaths d es) := by
  apply tree_induction
  · intro s0 t0 o p _ pd s t items hmem _ e _
    simp [Node.nodes] at hmem
  · intro s0 t0 es ih p hnd pd s t items hmem hex e he
    by_cases h : isExcluded m p = true
    · simp [touched, h]
    · simp only [Node.nodes, List.mem_cons] at hmem
      rcases hmem with hmem | hmem
      · simp only [Prod.mk.injEq] at hmem
        rw [hmem.1] at hex
        exact absurd hex h
      · have he2 : e ∈ Entries.nodes p es := nodes_trans.2 es p _ hmem e he
        simp only [Node.nodes, List.map_cons, List.nodup_cons] at hnd
        obtain ⟨h1, h2⟩ := ih p hnd.2 pd s t items hmem hex e he
        simp only [touched, h, if_false, List.mem_cons, List.mem_append, not_or,
          Bool.false_eq_true]
        refine ⟨?_, h2, h1⟩
        intro hep
        have hin : e.1 ∈ (Entries.nodes p es).map Prod.fst := List.mem_map_of_mem Prod.fst he2
        rw [hep] at hin
        exact hnd.1 hin
  · intro d _ pd s t items hmem
    simp [Entries.nodes] at hmem
  · intro name node rest ihn ihr d hnd pd s t items hmem hex e he
    simp only [Entries.nodes, List.map_append] at hnd
    obtain ⟨hn1, hn2, hdis⟩ := List.nodup_append.1 hnd
    simp only [Entries.nodes, List.mem_append] at hmem
    simp only [touchedEntries, removedPaths, List.mem_append, not_or]
    rcases hmem with hmem | hmem
    · have he2 : e ∈ Node.nodes (Join d name) node := nodes_trans.1 node _ _ hmem e he
      have hin : e.1 ∈ (Node.nodes (Join d name) node).map Prod.fst :=
        List.mem_map_of_mem Prod.fst he2
      refine ⟨⟨ihn _ hn1 pd s t items hmem hex e he, ?_⟩, ?_, ?_⟩
      · intro hc
        exact hdis hin ((touched_subset m).2 rest d _ hc)
      · by_cases ho : node.opened = OpenResult.notExist
        · obtain ⟨s1, t1, o1, hfile⟩ := opened_notExist_file node ho
          rw [hfile] at hmem
          simp [Node.nodes] at hmem
        · simp [ho]
      · intro hc
        exact hdis hin (removedPaths_subset d rest _ hc)
    · have he2 : e ∈ Entries.nodes d rest := nodes_trans.2 rest d _ hmem e he
      have hin : e.1 ∈ (Entries.nodes d rest).map Prod.fst :=
        List.mem_map_of_mem Prod.fst he2
      obtain ⟨h1, h2⟩ := ihr d hn2 pd s t items hmem hex e he
      have hself : Join d name ∈ (Node.nodes (Join d name) node).map Prod.fst :=
        List.mem_map_of_mem Prod.fst (nodes_self node _)
      refine ⟨⟨?_, h1⟩, ?_, h2⟩
      · intro hc
        exact hdis ((touched_subset m).1 node _ _ hc) hin
      · by_cases ho : node.opened = OpenResult.notExist
        · simp only [ho, if_true, List.mem_singleton]
          intro hc
          rw [hc] at hin
          exact hdis hself hin
        · simp [ho]

/-- C6, amended: when `isExcluded` is true for a directory of the tree, a walk
from the root, from any cache, sends none of the four messages about the
directory or about a path beneath it and leaves the cache as it was at all
these paths, whatever the directory holds. -/
theorem excluded_directory_pruned (m : DirectoryMonitor) (dirname : String) (root : Node)
    (c : Cache) (hwf : root.WellFormed dirname)
    (pd : String) (s t : Nat) (items : Entries)
    (hmem : (pd, Node.dir s t items) ∈ root.nodes dirname)
    (hex : isExcluded m pd = true) :
    ∀ e ∈ (Node.dir s t items).nodes pd,
      (∀ x ∈ (walkDirectoryForChanges m dirname root c).sent, ¬ Names e.1 x)
      ∧ (walkDirectoryForChanges m dirname root c).cache e.1 = c e.1 := by
  intro e he
  have hun := (excluded_subtree_untouched m).1 root dirname hwf pd s t items hmem hex e he
  have hw := walk_touched m dirname dirname root c
  unfold walkDirectoryForChanges
  rw [skipToNil_sent, skipToNil_cache]
  refine ⟨fun x hx hnames => ?_, ?_⟩
  · obtain ⟨q, hq, hqn⟩ := hw.1 x hx
    have heq : e.1 = q := Names.inj hnames hqn
    rw [← heq] at hq
    exact hun hq
  · by_contra hne
    exact hun (hw.2 e.1 hne)

theorem excluded_directory_pruned_witness :
    msgNewFile "root/build/x.o" ∉
      (walkDirectoryForChanges ⟨"root", false, 5, "*", "build"⟩ "root"
        (.dir 0 0 (.cons "build" (.dir 0 0 (.cons "x.o" (.file 3 0 .ok) .nil))
          (.cons "main.go" (.file 7 0 .ok) .nil)))
        emptyCache).sent
    ∧ (walkDirectoryForChanges ⟨"root", false, 5, "*", "build"⟩ "root"
        (.dir 0 0 (.cons "build" (.dir 0 0 (.cons "x.o" (.file 3 0 .ok) .nil))
          (.cons "main.go" (.file 7 0 .ok) .nil)))
        emptyCache).cache "root/build/x.o" = emptyCache "root/build/x.o" :=
  have h := excluded_directory_pruned ⟨"root", false, 5, "*", "build"⟩ "root"
    (.dir 0 0 (.cons "build" (.dir 0 0 (.cons "x.o" (.file 3 0 .ok) .nil))
      (.cons "main.go" (.file 7 0 .ok) .nil)))
    emptyCache (by unfold Node.WellFormed; decide) "root/build" 0 0
    (.cons "x.o" (.file 3 0 .ok) .nil)
    (by
      have h : Join "root" "build" = "root/build" := by decide
      simp [Node.nodes, Entries.nodes, h])
    (by decide) ("root/build/x.o", .file 3 0 .ok)
    (by
      have h : Join "root/build" "x.o" = "root/build/x.o" := by decide
      simp [Node.nodes, Entries.nodes, h])
  ⟨fun hin => h.1 _ hin (Or.inl rfl), h.2⟩

/-! ## One file through a walk -/

theorem isFileChanged_congr (c c2 : Cache) (f : String) (fi : FileInfo) (h : c2 f = c f) :
    isFileChanged c2 f fi = isFileChanged c f fi := by
  unfold isFileChanged
  rw [h]

theorem isFileChanged_settled (c : Cache) (f : String) (fi : FileInfo) (h : c f = some fi) :
    (isFileChanged c f fi).1 = false := by
  unfold isFileChanged
  rw [h]
  simp

theorem TracksAt.settled {f : String} {fi : FileInfo} {c : Cache} {o : Outcome}
    (h : TracksAt f fi c o) (hv : f ∈ o.visited) : (isFileChanged o.cache f fi).1 = false := by
  by_cases hc : (isFileChanged c f fi).1 = true
  · have := h.2
    rw [if_pos ⟨hv, hc⟩] at this
    exact isFileChanged_settled _ _ _ this
  · have h2 := h.2
    rw [if_neg (fun hh => hc hh.2)] at h2
    rw [isFileChanged_congr c o.cache f fi h2]
    simpa using hc

theorem TracksAt.compose {f : String} {fi : FileInfo} {c : Cache} {o1 o2 o : Outcome}
    (h1 : TracksAt f fi c o1) (h2 : TracksAt f fi o1.cache o2)
    (hs : o.sent = o1.sent ++ o2.sent) (hv : o.visited = o1.visited ++ o2.visited)
    (hc : o.cache = o2.cache) : TracksAt f fi c o := by
  unfold TracksAt
  rw [hs, hv, hc, List.filter_append, h1.1, h2.1, h2.2]
  by_cases hv1 : f ∈ o1.visited
  · have hset := h1.settled hv1
    have hfc : fileChange o1.cache f fi = [] := by simp [fileChange, hset]
    have h12 := h1.2
    simp only [hv1, true_and] at h12
    simp [hv1, hfc, hset, h12]
  · have h12 := h1.2
    simp only [hv1, false_and, if_false] at h12
    have hcg := isFileChanged_congr c o1.cache f fi h12
    simp [hv1, fileChange, hcg, h12]

theorem TracksAt.same {f : String} {fi : FileInfo} {c : Cache} {o o2 : Outcome}
    (h : TracksAt f fi c o) (hs : o2.sent = o.sent) (hv : o2.visited = o.visited)
    (hc : o2.cache = o.cache) : TracksAt f fi c o2 := by
  unfold TracksAt
  rw [hs, hv, hc]
  exact h

theorem Tracks.pure_tracks (f : String) (fi : FileInfo) : Tracks f fi Outcome.pure := by
  intro c
  simp [TracksAt, Outcome.pure]

theorem Tracks.thenDo_tracks {f : String} {fi : FileInfo} {W1 W2 : Cache → Outcome}
    (h1 : Tracks f fi W1) (h2 : Tracks f fi W2) : Tracks f fi (thenDo W1 W2) := by
  intro c
  unfold Watcher.thenDo
  by_cases hn : (W1 c).err = none
  · exact (h1 c).compose (h2 (W1 c).cache) (by simp [seq_sent, hn]) (by simp [seq_visited, hn])
      (by simp [seq_cache, hn])
  · exact (h1 c).same (by simp [seq_sent, hn]) (by simp [seq_visited, hn])
      (by simp [seq_cache, hn])

theorem Tracks.thenNext_tracks {f : String} {fi : FileInfo} {W1 W2 : Cache → Outcome} (isDir : Bool)
    (h1 : Tracks f fi W1) (h2 : Tracks f fi W2) : Tracks f fi (thenNext isDir W1 W2) := by
  intro c
  unfold Watcher.thenNext
  rcases next_cases isDir (W1 c) W2 with ⟨he, _, _⟩ | ⟨_, _, hc, hs, hv⟩
  · rw [he]
    exact h1 c
  · exact (h1 c).compose (h2 (W1 c).cache) hs hv hc

theorem Tracks.toNil_tracks {f : String} {fi : FileInfo} {W : Cache → Outcome}
    (h : Tracks f fi W) : Tracks f fi (toNil W) := by
  intro c
  exact (h c).same (skipToNil_sent _) (skipToNil_visited _) (skipToNil_cache _)

theorem Tracks.visiting_tracks {f : String} {fi : FileInfo} {W : Cache → Outcome} (path : String)
    (hp : path ≠ f) (h : Tracks f fi W) : Tracks f fi (visiting path W) := by
  intro c
  have hc := h c
  unfold TracksAt at hc ⊢
  have hne : f ≠ path := fun hh => hp hh.symm
  simpa [Watcher.visiting, Outcome.visit, hne] using hc

theorem aboutFile_names {f q x : String} (hq : q ≠ f) (h : Names q x) :
    aboutFile f x = false := by
  unfold aboutFile
  have h1 : x ≠ msgNewFile f := fun hx => hq (Names.inj h (Or.inl hx))
  have h2 : x ≠ msgModifiedFile f := fun hx => hq (Names.inj h (Or.inr (Or.inl hx)))
  simp [h1, h2]

theorem filter_eq_nil_of_names {f : String} {l : List String}
    (h : ∀ x ∈ l, ∃ q, q ≠ f ∧ Names q x) : l.filter (aboutFile f) = [] := by
  rw [List.filter_eq_nil_iff]
  intro x hx
  obtain ⟨q, hq, hn⟩ := h x hx
  simp [aboutFile_names hq hn]

theorem aboutFile_newDirectory (f q : String) : aboutFile f (msgNewDirectory q) = false := by
  unfold aboutFile
  have h1 : msgNewDirectory q ≠ msgNewFile f := fun h => msgNewFile_ne_directory _ _ h.symm
  have h2 : msgNewDirectory q ≠ msgModifiedFile f :=
    fun h => msgModifiedFile_ne_directory _ _ h.symm
  simp [h1, h2]

theorem aboutFile_removed (f q : String) : aboutFile f (msgRemoved q) = false := by
  unfold aboutFile
  have h1 : msgRemoved q ≠ msgNewFile f := fun h => msgNewFile_ne_removed _ _ h.symm
  have h2 : msgRemoved q ≠ msgModifiedFile f := fun h => msgModifiedFile_ne_removed _ _ h.symm
  simp [h1, h2]

theorem removed_visited (dirname : String) (items : Entries) :
    ∀ c, (handleRemovedItemsFromDirectory c dirname items).visited = [] := by
  refine entries_induction (Q := fun items => ∀ c,
    (handleRemovedItemsFromDirectory c dirname items).visited = []) ?_ ?_ items
  · intro c
    simp [handleRemovedItemsFromDirectory, Outcome.pure]
  · intro name node rest ih c
    unfold handleRemovedItemsFromDirectory
    cases ho : node.opened with
    | ok => simpa [ho] using ih c
    | notExist => simpa [ho] using ih _
    | permission => simp [ho]

theorem checkDir_visited (path : String) (info : FileInfo) (items : Entries) (c : Cache) :
    (checkDir path info items c).visited = [] := by
  unfold checkDir checkForDirectoryChanges
  cases c path with
  | none => simp [handleNewDirectory]
  | some v => simp [handleExistingDirectory, removed_visited]

theorem Tracks.checkDir_tracks {f : String} {fi : FileInfo} (path : String) (info : FileInfo)
    (items : Entries) (hp : path ≠ f) : Tracks f fi (checkDir path info items) := by
  intro c
  have ht := Traced.checkDir_traced path 0 0 items info c
  unfold TracksAt
  rw [checkDir_visited]
  simp only [List.not_mem_nil, if_false, false_and]
  constructor
  · rw [List.filter_eq_nil_iff]
    intro x hx
    obtain ⟨e, he, hem⟩ := ht.1 x hx
    simp only [List.mem_singleton] at he
    rw [he] at hem
    rcases hem with hem | ⟨e2, _, _, hem⟩
    · simp [hem, aboutFile_newDirectory]
    · simp [hem, aboutFile_removed]
  · by_contra hne
    obtain ⟨e, he, heq⟩ := ht.2 f hne
    simp only [List.mem_singleton] at he
    rw [he] at heq
    exact hp heq

theorem aboutFile_isFileChanged (c : Cache) (f : String) (fi : FileInfo)
    (h : (isFileChanged c f fi).1 = true) : aboutFile f (isFileChanged c f fi).2 = true := by
  rcases isFileChanged_msg c f fi with h1 | h1 | h1
  · simp [aboutFile, h1]
  · simp [aboutFile, h1]
  · rw [h] at h1
    exact absurd h1 (by simp)

theorem Tracks.fnFile_tracks (m : DirectoryMonitor) {f : String} {fi : FileInfo}
    (hinc : isIncluded m f = true) (hexc : isExcluded m f = false)
    (dirname path : String) (s t : Nat) (o : OpenResult) (nested : Cache → Outcome)
    (hnode : path = f → fi = ⟨false, s, t⟩) :
    Tracks f fi (fn m dirname path (.file s t o) nested) := by
  intro c
  by_cases hpf : path = f
  · have hfi := hnode hpf
    subst hpf
    rw [fn_file _ _ _ _ _ _ _ _ hexc, ← hfi]
    by_cases hc : (isFileChanged c path fi).1 = true
    · rw [if_pos ⟨hinc, hc⟩]
      unfold TracksAt
      simp [fileChange, hc, aboutFile_isFileChanged c path fi hc, addCacheEntry]
    · rw [if_neg (fun hh => hc hh.2)]
      unfold TracksAt
      simp [fileChange, hc]
  · have hne : f ≠ path := fun hh => hpf hh.symm
    by_cases hex : isExcluded m path = true
    · rw [fn_excluded _ _ _ _ _ _ hex]
      unfold TracksAt
      simp [hne]
    · have hex2 : isExcluded m path = false := by simpa using hex
      have ht := Traced.fnFile_traced m dirname path s t o nested hex2 c
      unfold TracksAt
      have hvis : (fn m dirname path (.file s t o) nested c).visited = [path] := by
        rw [fn_file _ _ _ _ _ _ _ _ hex2]
        split <;> rfl
      rw [hvis]
      simp only [List.mem_singleton, hne, if_false, false_and]
      constructor
      · apply filter_eq_nil_of_names
        intro x hx
        obtain ⟨e, he, hem⟩ := ht.1 x hx
        simp only [List.mem_singleton] at he
        rw [he] at hem
        refine ⟨path, hpf, ?_⟩
        rcases hem with hem | hem
        · exact Or.inl hem
        · exact Or.inr (Or.inl hem)
      · by_contra hcne
        obtain ⟨e, he, heq⟩ := ht.2 f hcne
        simp only [List.mem_singleton] at he
        rw [he] at heq
        exact hpf heq

/-- Through a whole walk the file `f` is treated as by one call of the walk
function: the first visit sends what `isFileChanged` says and settles the
entry, later visits find the entry settled. -/
theorem walk_tracks (m : DirectoryMonitor) (f : String) (s t : Nat) (op : OpenResult)
    (hinc : isIncluded m f = true) (hexc : isExcluded m f = false) :
    (∀ n dirname path, (∀ e ∈ Node.nodes path n, e.1 = f → e.2 = Node.file s t op) →
      Tracks f ⟨false, s, t⟩ (walk m dirname path n))
    ∧ (∀ es dirname dir, (∀ e ∈ Entries.nodes dir es, e.1 = f → e.2 = Node.file s t op) →
      Tracks f ⟨false, s, t⟩ (walkEntries m dirname dir es)) := by
  apply tree_induction
  · intro s0 t0 o dirname path hyp
    have hw : walk m dirname path (.file s0 t0 o)
        = fn m dirname path (.file s0 t0 o) Outcome.pure := by
      funext c; rw [walk_file]
    rw [hw]
    apply Tracks.fnFile_tracks m hinc hexc
    intro hpf
    have := hyp (path, .file s0 t0 o) (nodes_self _ _) hpf
    simp only [Node.file.injEq] at this
    rw [this.1, this.2.1]
  · intro s0 t0 items ih dirname path hyp
    have hpf : path ≠ f := by
      intro hpf
      have := hyp (path, .dir s0 t0 items) (nodes_self _ _) hpf
      simp at this
    have hne : f ≠ path := fun hh => hpf hh.symm
    have hsub : ∀ e ∈ Entries.nodes path items, e.1 = f → e.2 = Node.file s t op := by
      intro e he
      exact hyp e (by simp [Node.nodes, he])
    by_cases hex : isExcluded m path = true
    · intro c
      rw [walk_dir_excluded _ _ _ _ _ _ _ hex]
      unfold TracksAt
      simp [hne]
    · have hex2 : isExcluded m path = false := by simpa using hex
      rw [walk_dir_shape _ _ _ _ _ _ hex2]
      have hck : Tracks f ⟨false, s, t⟩ (checkDir path ⟨true, s0, t0⟩ items) :=
        Tracks.checkDir_tracks path _ items hpf
      have hnest : Tracks f ⟨false, s, t⟩
          (if m.NoTraverse = false ∧ dirname ≠ path then
            toNil (thenDo (visiting path (checkDir path ⟨true, s0, t0⟩ items))
              (walkEntries m path path items))
           else Outcome.pure) := by
        split
        · exact ((hck.visiting_tracks path hpf).thenDo_tracks (ih path path hsub)).toNil_tracks
        · exact Tracks.pure_tracks _ _
      exact ((hnest.thenDo_tracks hck).visiting_tracks path hpf).thenDo_tracks (ih dirname path hsub)
  · intro dirname dir _ c
    rw [walkEntries_nil]
    exact Tracks.pure_tracks _ _ c
  · intro name node rest ihn ihr dirname dir hyp
    rw [walkEntries_cons_shape]
    apply Tracks.thenNext_tracks
    · exact ihn dirname (Join dir name) (fun e he => hyp e (by simp [Entries.nodes, he]))
    · exact ihr dirname dir (fun e he => hyp e (by simp [Entries.nodes, he]))

theorem node_unique {l : List (String × Node)} (h : (l.map Prod.fst).Nodup)
    {p : String} {n1 n2 : Node} (h1 : (p, n1) ∈ l) (h2 : (p, n2) ∈ l) : n1 = n2 := by
  induction l with
  | nil => simp at h1
  | cons a rest ih =>
    simp only [List.map_cons, List.nodup_cons] at h
    rcases List.mem_cons.1 h1 with h1 | h1 <;> rcases List.mem_cons.1 h2 with h2 | h2
    · rw [← h1] at h2
      exact (Prod.mk.inj h2).2.symm
    · exfalso
      apply h.1
      have hm : (p, n2).1 ∈ rest.map Prod.fst := List.mem_map_of_mem Prod.fst h2
      rw [← h1]
      exact hm
    · exfalso
      apply h.1
      have hm : (p, n1).1 ∈ rest.map Prod.fst := List.mem_map_of_mem Prod.fst h1
      rw [← h2]
      exact hm
    · exact ih h.2 h1 h2

theorem walkDirectoryForChanges_tracks (m : DirectoryMonitor) (dirname : String) (root : Node)
    (c : Cache) (hwf : root.WellFormed dirname) (f : String) (s t : Nat) (op : OpenResult)
    (hmem : (f, Node.file s t op) ∈ root.nodes dirname)
    (hinc : isIncluded m f = true) (hexc : isExcluded m f = false) :
    TracksAt f ⟨false, s, t⟩ c (walkDirectoryForChanges m dirname root c) := by
  have hyp : ∀ e ∈ Node.nodes dirname root, e.1 = f → e.2 = Node.file s t op := by
    intro e he hef
    obtain ⟨p, n⟩ := e
    simp only at hef
    subst hef
    exact node_unique hwf he hmem
  exact ((walk_tracks m f s t op hinc hexc).1 root dirname dirname hyp c).same
    (skipToNil_sent _) (skipToNil_visited _) (skipToNil_cache _)

theorem reach_subset (m : DirectoryMonitor) :
    (∀ n p e, e ∈ reach m p n → e ∈ Node.nodes p n)
    ∧ (∀ es d e, e ∈ reachEntries m d es → e ∈ Entries.nodes d es) := by
  apply tree_induction
  · intro s t o p e he
    by_cases h : isExcluded m p = true
    · simp [reach, h] at he
    · simp only [reach, h, if_false, List.mem_singleton, Bool.false_eq_true] at he
      simp [Node.nodes, he]
  · intro s t items ih p e he
    by_cases h : isExcluded m p = true
    · simp [reach, h] at he
    · simp only [reach, h, if_false, List.mem_cons, Bool.false_eq_true] at he
      simp only [Node.nodes, List.mem_cons]
      rcases he with he | he
      · exact Or.inl he
      · exact Or.inr (ih p e he)
  · intro d e he
    simp [reachEntries] at he
  · intro name node rest ihn ihr d e he
    simp only [reachEntries, List.mem_append] at he
    simp only [Entries.nodes, List.mem_append]
    rcases he with he | he
    · exact Or.inl (ihn _ e he)
    · exact Or.inr (ihr d e he)

/-- In a well-formed tree the only messages that name the path of a
non-directory which `os.Open` finds or is denied are the two messages of
`isFileChanged`. -/
theorem names_file_aboutFile (m : DirectoryMonitor) (dirname : String) (root : Node)
    (c : Cache) (hwf : root.WellFormed dirname) (f : String) (s t : Nat) (op : OpenResult)
    (hmem : (f, Node.file s t op) ∈ root.nodes dirname) (hop : op ≠ OpenResult.notExist)
    (x : String) (hx : x ∈ (walkDirectoryForChanges m dirname root c).sent)
    (hn : Names f x) : aboutFile f x = true := by
  unfold walkDirectoryForChanges at hx
  rw [skipToNil_sent] at hx
  obtain ⟨e, he, hem⟩ := ((walk_traced m).1 root dirname dirname c).1 x hx
  have hen : e ∈ root.nodes dirname := (reach_subset m).1 root dirname e he
  obtain ⟨p, k⟩ := e
  cases k with
  | file s1 t1 o1 =>
    rcases hem with hem | hem
    · have hpf : f = p := Names.inj hn (Or.inl hem)
      simp [aboutFile, hem, hpf]
    · have hpf : f = p := Names.inj hn (Or.inr (Or.inl hem))
      simp [aboutFile, hem, hpf]
  | dir s1 t1 items =>
    exfalso
    rcases hem with hem | ⟨e2, he2, ho, hem⟩
    · have hpf : f = p := Names.inj hn (Or.inr (Or.inr (Or.inl hem)))
      rw [← hpf] at hen
      have := node_unique hwf hen hmem
      simp at this
    · have hpf : f = Join p e2.1 := Names.inj hn (Or.inr (Or.inr (Or.inr hem)))
      have hch : (Join p e2.1, e2.2) ∈ root.nodes dirname := by
        have h1 : (Join p e2.1, e2.2) ∈ (Node.dir s1 t1 items).nodes p := by
          simp only [Node.nodes, List.mem_cons]
          exact Or.inr (child_mem_nodes p items e2 he2)
        exact nodes_trans.1 root dirname _ hen _ h1
      rw [← hpf] at hch
      have := node_unique hwf hch hmem
      rw [this] at ho
      exact hop ho

/-! ## A cached file whose size changes, or does not -/

/-- C9, amended: for a file of the tree that passes both filters and has a
cache entry:
if its size differs from the cached size and the walk visits it, the whole
walk sends the message `Found modified file` for it exactly once, sends no
new-file message for it, and the entry becomes the new information; if its
size equals the cached size, whatever its modification time, the walk sends
neither message of `isFileChanged` for it and keeps the entry, and when
`os.Open` does not report the file as missing (it is not a dead link) no
message of the walk names it at all. -/
theorem modified_file_reported_once (m : DirectoryMonitor) (dirname : String) (root : Node)
    (c : Cache) (hwf : root.WellFormed dirname) (f : String) (s t : Nat) (op : OpenResult)
    (hmem : (f, Node.file s t op) ∈ root.nodes dirname)
    (hinc : isIncluded m f = true) (hexc : isExcluded m f = false)
    (v : FileInfo) (hc : c f = some v) :
    (s ≠ v.size → f ∈ (walkDirectoryForChanges m dirname root c).visited →
      (walkDirectoryForChanges m dirname root c).sent.count (msgModifiedFile f) = 1
      ∧ msgNewFile f ∉ (walkDirectoryForChanges m dirname root c).sent
      ∧ (walkDirectoryForChanges m dirname root c).cache f = some ⟨false, s, t⟩)
    ∧ (s = v.size →
      msgModifiedFile f ∉ (walkDirectoryForChanges m dirname root c).sent
      ∧ msgNewFile f ∉ (walkDirectoryForChanges m dirname root c).sent
      ∧ (walkDirectoryForChanges m dirname root c).cache f = some v
      ∧ (op ≠ OpenResult.notExist →
          ∀ x ∈ (walkDirectoryForChanges m dirname root c).sent, ¬ Names f x)) := by
  have htr := walkDirectoryForChanges_tracks m dirname root c hwf f s t op hmem hinc hexc
  have hmodT : aboutFile f (msgModifiedFile f) = true := by simp [aboutFile]
  have hnewT : aboutFile f (msgNewFile f) = true := by simp [aboutFile]
  constructor
  · intro hsz hvis
    have hch : isFileChanged c f ⟨false, s, t⟩ = (true, msgModifiedFile f) := by
      simp [isFileChanged, hc, hsz]
    have h1 := htr.1
    have h2 := htr.2
    simp only [hvis, if_true, fileChange, hch, true_and] at h1 h2
    refine ⟨?_, ?_, h2⟩
    · have hcnt := List.count_filter (l := (walkDirectoryForChanges m dirname root c).sent)
        (a := msgModifiedFile f) hmodT
      rw [← hcnt, h1]
      simp
    · intro hin
      have : msgNewFile f ∈ (walkDirectoryForChanges m dirname root c).sent.filter
          (aboutFile f) := List.mem_filter.2 ⟨hin, hnewT⟩
      rw [h1] at this
      simp only [List.mem_singleton] at this
      exact msgNewFile_ne_modified _ _ this
  · intro hsz
    have hch : (isFileChanged c f ⟨false, s, t⟩).1 = false := by
      simp [isFileChanged, hc, hsz]
    have h1 := htr.1
    have h2 := htr.2
    simp only [fileChange, hch, Bool.false_eq_true, if_false, and_false, ite_self] at h1 h2
    have hnone : ∀ x ∈ (walkDirectoryForChanges m dirname root c).sent,
        aboutFile f x = false := by
      intro x hx
      by_contra hab
      have hab2 : aboutFile f x = true := by simpa using hab
      have : x ∈ (walkDirectoryForChanges m dirname root c).sent.filter (aboutFile f) :=
        List.mem_filter.2 ⟨hx, hab2⟩
      rw [h1] at this
      simp at this
    refine ⟨?_, ?_, ?_, ?_⟩
    · intro hin
      have := hnone _ hin
      rw [hmodT] at this
      exact absurd this (by simp)
    · intro hin
      have := hnone _ hin
      rw [hnewT] at this
      exact absurd this (by simp)
    · rw [h2, hc]
    · intro hop x hx hn
      have h3 := names_file_aboutFile m dirname root c hwf f s t op hmem hop x hx hn
      rw [hnone x hx] at h3
      exact absurd h3 (by simp)

/-! ## Which paths a walk visits -/

theorem removed_err (dirname : String) (items : Entries) :
    ∀ c, (handleRemovedItemsFromDirectory c dirname items).err ≠ some Error.SkipDir := by
  refine entries_induction (Q := fun items => ∀ c,
    (handleRemovedItemsFromDirectory c dirname items).err ≠ some Error.SkipDir) ?_ ?_ items
  · intro c
    simp [handleRemovedItemsFromDirectory, Outcome.pure]
  · intro name node rest ih c
    unfold handleRemovedItemsFromDirectory
    cases ho : node.opened with
    | ok => simpa [ho] using ih c
    | notExist => simpa [ho] using ih _
    | permission => simp [ho]

theorem NoSkip.checkDir_noSkip (path : String) (info : FileInfo) (items : Entries) :
    NoSkip (checkDir path info items) := by
  intro c
  unfold Watcher.checkDir checkForDirectoryChanges
  cases c path with
  | none => simp [handleNewDirectory]
  | some v => simpa [handleExistingDirectory] using removed_err path items c

theorem NoSkip.pure_noSkip : NoSkip Outcome.pure := by
  intro c
  simp [Outcome.pure]

theorem NoSkip.toNil_noSkip (W : Cache → Outcome) : NoSkip (toNil W) := by
  intro c
  unfold Watcher.toNil
  rw [skipToNil_err]
  by_cases h : (W c).err = some Error.SkipDir
  · simp [h]
  · simp [h]

theorem NoSkip.thenDo_noSkip {W1 W2 : Cache → Outcome} (h1 : NoSkip W1) (h2 : NoSkip W2) :
    NoSkip (thenDo W1 W2) := by
  intro c
  unfold Watcher.thenDo
  rw [seq_err]
  by_cases h : (W1 c).err = none
  · simpa [h] using h2 _
  · simpa [h] using h1 c

theorem NoSkip.visiting_noSkip {W : Cache → Outcome} (path : String) (h : NoSkip W) :
    NoSkip (visiting path W) := by
  intro c
  exact h c

/-- The part of the walk of a directory that is not excluded, before its
entries are walked. -/
theorem walk_dir_head_noSkip (m : DirectoryMonitor) (dirname path : String) (s t : Nat)
    (items : Entries) :
    NoSkip (visiting path (thenDo
      (if m.NoTraverse = false ∧ dirname ≠ path then
        toNil (thenDo (visiting path (checkDir path ⟨true, s, t⟩ items))
          (walkEntries m path path items))
       else Outcome.pure)
      (checkDir path ⟨true, s, t⟩ items))) := by
  apply NoSkip.visiting_noSkip
  apply NoSkip.thenDo_noSkip _ (NoSkip.checkDir_noSkip _ _ _)
  split
  · exact NoSkip.toNil_noSkip _
  · exact NoSkip.pure_noSkip

theorem fn_file_err (m : DirectoryMonitor) (dirname path : String) (s t : Nat)
    (o : OpenResult) (nested : Cache → Outcome) (c : Cache) :
    (fn m dirname path (.file s t o) nested c).err
      = if isExcluded m path = true then some Error.SkipDir else none := by
  by_cases h : isExcluded m path = true
  · rw [fn_excluded _ _ _ _ _ _ h]
    simp [h]
  · have h2 : isExcluded m path = false := by simpa using h
    rw [fn_file _ _ _ _ _ _ _ _ h2]
    split <;> simp [h2]

theorem fn_file_visited (m : DirectoryMonitor) (dirname path : String) (s t : Nat)
    (o : OpenResult) (nested : Cache → Outcome) (c : Cache) :
    (fn m dirname path (.file s t o) nested c).visited = [path] := by
  by_cases h : isExcluded m path = true
  · rw [fn_excluded _ _ _ _ _ _ h]
  · have h2 : isExcluded m path = false := by simpa using h
    rw [fn_file _ _ _ _ _ _ _ _ h2]
    split <;> rfl

/-- A walk that returns no error other than `SkipDir` calls the walk function
on every findable path. -/
theorem walk_visits (m : DirectoryMonitor) (f : String) :
    (∀ n dirname path c, findable m f path n = true →
      (∀ q, (walk m dirname path n c).err ≠ some (Error.Permission q)) →
      f ∈ (walk m dirname path n c).visited)
    ∧ (∀ es dirname dir c, findableEntries m f dir es = true →
      (∀ q, (walkEntries m dirname dir es c).err ≠ some (Error.Permission q)) →
      f ∈ (walkEntries m dirname dir es c).visited) := by
  apply tree_induction
  · intro s t o dirname path c hf _
    simp only [findable, decide_eq_true_eq] at hf
    rw [walk_file, fn_file_visited, hf]
    simp
  · intro s t items ih dirname path c hf herr
    by_cases hex : isExcluded m path = true
    · simp only [findable, hex, Bool.not_true, Bool.false_and, Bool.or_false,
        decide_eq_true_eq] at hf
      rw [walk_dir_excluded _ _ _ _ _ _ _ hex, hf]
      simp
    · have hex2 : isExcluded m path = false := by simpa using hex
      have hns := walk_dir_head_noSkip m dirname path s t items
      rw [walk_dir_shape _ _ _ _ _ _ hex2] at herr ⊢
      generalize hA : (visiting path (thenDo
        (if m.NoTraverse = false ∧ dirname ≠ path then
          toNil (thenDo (visiting path (checkDir path ⟨true, s, t⟩ items))
            (walkEntries m path path items))
         else Outcome.pure)
        (checkDir path ⟨true, s, t⟩ items))) = A at hns herr ⊢
      have hAv : path ∈ (A c).visited := by
        rw [← hA]
        simp [Watcher.visiting, Outcome.visit]
      simp only [thenDo, seq_visited, seq_err] at herr ⊢
      simp only [findable, hex2, Bool.not_false, Bool.true_and, Bool.or_eq_true,
        decide_eq_true_eq] at hf
      rcases hf with hf | hf
      · rw [← hf]
        exact List.mem_append_left _ hAv
      · by_cases hn : (A c).err = none
        · simp only [hn, if_true] at herr ⊢
          exact List.mem_append_right _ (ih dirname path _ hf herr)
        · exfalso
          simp only [hn, if_false] at herr
          cases he : (A c).err with
          | none => exact hn he
          | some e =>
            cases e with
            | SkipDir => exact hns c he
            | Permission q => exact herr q he
  · intro dirname dir c hf
    simp [findableEntries] at hf
  · intro name node rest ihn ihr dirname dir c hf herr
    rw [walkEntries_cons_next] at herr ⊢
    simp only [findableEntries, Bool.or_eq_true, Bool.and_eq_true, Bool.not_eq_true',
      ] at hf
    rcases next_cases node.info.isDir (walk m dirname (Join dir name) node c)
      (walkEntries m dirname dir rest) with ⟨he, hne, hns⟩ | ⟨hgo, herr2, _, _, hv⟩
    · rw [he] at herr ⊢
      rcases hf with hf | ⟨hf1, hf2⟩
      · exact ihn dirname _ c hf herr
      · exfalso
        cases hnode : node with
        | file s t o =>
          rw [hnode] at hne hf1
          rw [walk_file, fn_file_err] at hne
          simp only [Node.info, Bool.false_eq_true, false_or] at hf1
          simp [hf1] at hne
        | dir s t items =>
          rw [hnode] at hns herr hne
          simp only [Node.info, and_true] at hns
          cases he2 : (walk m dirname (Join dir name) (Node.dir s t items) c).err with
          | none => exact hne he2
          | some e =>
            cases e with
            | SkipDir => exact hns he2
            | Permission q => exact herr q he2
    · rw [hv]
      rw [herr2] at herr
      rcases hf with hf | ⟨_, hf2⟩
      · refine List.mem_append_left _ (ihn dirname _ c hf ?_)
        intro q hq
        rcases hgo with hgo | hgo
        · rw [hgo] at hq; simp at hq
        · rw [hgo.1] at hq; simp at hq
      · exact List.mem_append_right _ (ihr dirname dir _ hf2 herr)

theorem modified_file_reported_once_witness :
    (walkDirectoryForChanges ⟨"root", false, 5, "*.txt", ""⟩ "root"
        (.dir 0 1 (.cons "sub" (.dir 0 1 (.cons "a.txt" (.file 20 1 .ok) .nil)) .nil))
        (buildInitialCache ⟨"root", false, 5, "*.txt", ""⟩
          (.dir 0 0 (.cons "sub" (.dir 0 0 (.cons "a.txt" (.file 10 0 .ok) .nil)) .nil))
          emptyCache)).sent.count (msgModifiedFile "root/sub/a.txt") = 1
    ∧ msgNewFile "root/sub/a.txt" ∉
      (walkDirectoryForChanges ⟨"root", false, 5, "*.txt", ""⟩ "root"
        (.dir 0 1 (.cons "sub" (.dir 0 1 (.cons "a.txt" (.file 20 1 .ok) .nil)) .nil))
        (buildInitialCache ⟨"root", false, 5, "*.txt", ""⟩
          (.dir 0 0 (.cons "sub" (.dir 0 0 (.cons "a.txt" (.file 10 0 .ok) .nil)) .nil))
          emptyCache)).sent
    ∧ (walkDirectoryForChanges ⟨"root", false, 5, "*.txt", ""⟩ "root"
        (.dir 0 1 (.cons "sub" (.dir 0 1 (.cons "a.txt" (.file 20 1 .ok) .nil)) .nil))
        (buildInitialCache ⟨"root", false, 5, "*.txt", ""⟩
          (.dir 0 0 (.cons "sub" (.dir 0 0 (.cons "a.txt" (.file 10 0 .ok) .nil)) .nil))
          emptyCache)).cache "root/sub/a.txt" = some ⟨false, 20, 1⟩ :=
  (modified_file_reported_once ⟨"root", false, 5, "*.txt", ""⟩ "root"
    (.dir 0 1 (.cons "sub" (.dir 0 1 (.cons "a.txt" (.file 20 1 .ok) .nil)) .nil))
    (buildInitialCache ⟨"root", false, 5, "*.txt", ""⟩
      (.dir 0 0 (.cons "sub" (.dir 0 0 (.cons "a.txt" (.file 10 0 .ok) .nil)) .nil))
      emptyCache)
    (by unfold Node.WellFormed; decide) "root/sub/a.txt" 20 1 .ok
    (by
      have h1 : Join "root" "sub" = "root/sub" := by decide
      have h2 : Join "root/sub" "a.txt" = "root/sub/a.txt" := by decide
      simp [Node.nodes, Entries.nodes, h1, h2])
    (by decide) (by decide) ⟨false, 10, 0⟩ (by decide)).1 (by decide) (by decide)

/-! ## A new file -/

/-- A new file that the walk reaches is reported once: for a file of the tree
that has no cache entry, for which
`isIncluded` is true and `isExcluded` is false, that is findable (no directory
on the way to it, the root included, is excluded, and no excluded
non-directory is listed before it or before a directory on the way to it in
the same directory), when the walk from the root ends without error: the walk
sends the message `Found new file` for it exactly once, no modified-file
message for it, and afterwards the cache holds its information. -/
theorem new_file_reported_once (m : DirectoryMonitor) (dirname : String) (root : Node)
    (c : Cache) (hwf : root.WellFormed dirname) (f : String) (s t : Nat) (op : OpenResult)
    (hmem : (f, Node.file s t op) ∈ root.nodes dirname)
    (hinc : isIncluded m f = true) (hexc : isExcluded m f = false)
    (hnew : c f = none) (hfind : findable m f dirname root = true)
    (herr : (walkDirectoryForChanges m dirname root c).err = none) :
    (walkDirectoryForChanges m dirname root c).sent.count (msgNewFile f) = 1
    ∧ msgModifiedFile f ∉ (walkDirectoryForChanges m dirname root c).sent
    ∧ (walkDirectoryForChanges m dirname root c).cache f = some ⟨false, s, t⟩ := by
  have htr := walkDirectoryForChanges_tracks m dirname root c hwf f s t op hmem hinc hexc
  have hvis : f ∈ (walkDirectoryForChanges m dirname root c).visited := by
    unfold walkDirectoryForChanges at herr ⊢
    rw [skipToNil_visited]
    apply (walk_visits m f).1 root dirname dirname c hfind
    intro q hq
    rw [skipToNil_err, hq] at herr
    simp at herr
  have hch : isFileChanged c f ⟨false, s, t⟩ = (true, msgNewFile f) := by
    simp [isFileChanged, hnew]
  have h1 := htr.1
  have h2 := htr.2
  simp only [hvis, if_true, fileChange, hch, true_and] at h1 h2
  have hnewT : aboutFile f (msgNewFile f) = true := by simp [aboutFile]
  have hmodT : aboutFile f (msgModifiedFile f) = true := by simp [aboutFile]
  refine ⟨?_, ?_, h2⟩
  · have hcnt := List.count_filter (l := (walkDirectoryForChanges m dirname root c).sent)
      (a := msgNewFile f) hnewT
    rw [← hcnt, h1]
    simp
  · intro hin
    have : msgModifiedFile f ∈ (walkDirectoryForChanges m dirname root c).sent.filter
        (aboutFile f) := List.mem_filter.2 ⟨hin, hmodT⟩
    rw [h1] at this
    simp only [List.mem_singleton] at this
    exact msgNewFile_ne_modified _ _ this.symm

theorem new_file_reported_once_witness :
    (walkDirectoryForChanges ⟨"root", false, 5, "*", "*.bak"⟩ "root"
        (.dir 0 1 (.cons "sub" (.dir 0 1 (.cons "f.txt" (.file 2 1 .ok)
          (.cons "z.bak" (.file 1 0 .ok) .nil))) .nil))
        (buildInitialCache ⟨"root", false, 5, "*", "*.bak"⟩
          (.dir 0 0 (.cons "sub" (.dir 0 0 (.cons "z.bak" (.file 1 0 .ok) .nil)) .nil))
          emptyCache)).sent.count (msgNewFile "root/sub/f.txt") = 1
    ∧ msgModifiedFile "root/sub/f.txt" ∉
      (walkDirectoryForChanges ⟨"root", false, 5, "*", "*.bak"⟩ "root"
        (.dir 0 1 (.cons "sub" (.dir 0 1 (.cons "f.txt" (.file 2 1 .ok)
          (.cons "z.bak" (.file 1 0 .ok) .nil))) .nil))
        (buildInitialCache ⟨"root", false, 5, "*", "*.bak"⟩
          (.dir 0 0 (.cons "sub" (.dir 0 0 (.cons "z.bak" (.file 1 0 .ok) .nil)) .nil))
          emptyCache)).sent
    ∧ (walkDirectoryForChanges ⟨"root", false, 5, "*", "*.bak"⟩ "root"
        (.dir 0 1 (.cons "sub" (.dir 0 1 (.cons "f.txt" (.file 2 1 .ok)
          (.cons "z.bak" (.file 1 0 .ok) .nil))) .nil))
        (buildInitialCache ⟨"root", false, 5, "*", "*.bak"⟩
          (.dir 0 0 (.cons "sub" (.dir 0 0 (.cons "z.bak" (.file 1 0 .ok) .nil)) .nil))
          emptyCache)).cache "root/sub/f.txt" = some ⟨false, 2, 1⟩ :=
  new_file_reported_once ⟨"root", false, 5, "*", "*.bak"⟩ "root"
    (.dir 0 1 (.cons "sub" (.dir 0 1 (.cons "f.txt" (.file 2 1 .ok)
      (.cons "z.bak" (.file 1 0 .ok) .nil))) .nil))
    (buildInitialCache ⟨"root", false, 5, "*", "*.bak"⟩
      (.dir 0 0 (.cons "sub" (.dir 0 0 (.cons "z.bak" (.file 1 0 .ok) .nil)) .nil))
      emptyCache)
    (by unfold Node.WellFormed; decide) "root/sub/f.txt" 2 1 .ok
    (by
      have h1 : Join "root" "sub" = "root/sub" := by decide
      have h2 : Join "root/sub" "f.txt" = "root/sub/f.txt" := by decide
      simp [Node.nodes, Entries.nodes, h1, h2])
    (by decide) (by decide) (by decide) (by decide) (by decide)

/-! ## A second walk of an unmodified tree -/

theorem Cache.le_refl (c : Cache) : Cache.le c c := fun _ _ h => h

theorem Cache.le_trans {a b c : Cache} (h1 : Cache.le a b) (h2 : Cache.le b c) :
    Cache.le a c := fun p v h => h2 p v (h1 p v h)

theorem Quiet.pure_quiet (F : Cache) : Quiet F Outcome.pure := by
  intro c hc
  refine ⟨Cache.le_refl c, hc, ?_⟩
  intro c2 _ _
  simp [Outcome.pure]

theorem Quiet.toNil_quiet {F : Cache} {W : Cache → Outcome} (h : Quiet F W) : Quiet F (toNil W) := by
  intro c hc
  obtain ⟨h1, h2, h3⟩ := h c hc
  unfold Watcher.toNil
  simp only [skipToNil_cache, skipToNil_sent, skipToNil_err]
  refine ⟨h1, h2, ?_⟩
  intro c2 hc2 hF2
  obtain ⟨h4, h5, h6⟩ := h3 c2 hc2 hF2
  refine ⟨h4, h5, ?_⟩
  rcases h6 with h6 | ⟨q, h6⟩
  · left; rw [h6]
  · right; exact ⟨q, by simp [h6]⟩

theorem Quiet.visiting_quiet {F : Cache} {W : Cache → Outcome} (path : String) (h : Quiet F W) :
    Quiet F (visiting path W) := by
  intro c hc
  exact h c hc

theorem Quiet.thenDo_quiet {F : Cache} {W1 W2 : Cache → Outcome} (h1 : Quiet F W1)
    (h2 : Quiet F W2) : Quiet F (thenDo W1 W2) := by
  intro c hc
  obtain ⟨ha, hb, hrun⟩ := h1 c hc
  unfold Watcher.thenDo
  by_cases hn : (W1 c).err = none
  · obtain ⟨ha2, hb2, hrun2⟩ := h2 (W1 c).cache hb
    have hcache : ((W1 c).seq W2).cache = (W2 (W1 c).cache).cache := by simp [seq_cache, hn]
    have herr : ((W1 c).seq W2).err = (W2 (W1 c).cache).err := by simp [seq_err, hn]
    rw [hcache, herr]
    refine ⟨Cache.le_trans ha ha2, hb2, ?_⟩
    intro c2 hc2 hF2
    obtain ⟨hs, hcc, he⟩ := hrun c2 (Cache.le_trans ha2 hc2) hF2
    rcases he with he | ⟨q, he⟩
    · rw [hn] at he
      obtain ⟨hs2, hcc2, he2⟩ := hrun2 c2 hc2 hF2
      rw [seq_sent, seq_cache, seq_err]
      simp only [he, if_true, hcc, hs, List.nil_append]
      exact ⟨hs2, hcc2, he2⟩
    · rw [seq_sent, seq_cache, seq_err]
      simp only [he, hs, hcc]
      refine ⟨by simp, by simp, Or.inr ⟨q, by simp⟩⟩
  · have hcache : ((W1 c).seq W2).cache = (W1 c).cache := by simp [seq_cache, hn]
    have herr : ((W1 c).seq W2).err = (W1 c).err := by simp [seq_err, hn]
    rw [hcache, herr]
    refine ⟨ha, hb, ?_⟩
    intro c2 hc2 hF2
    obtain ⟨hs, hcc, he⟩ := hrun c2 hc2 hF2
    have hn2 : (W1 c2).err ≠ none := by
      rcases he with he | ⟨q, he⟩
      · rw [he]; exact hn
      · rw [he]; simp
    rw [seq_sent, seq_cache, seq_err]
    simp only [hn2, if_false, hs, hcc, List.append_nil]
    exact ⟨trivial, trivial, he⟩

theorem Quiet.thenNext_quiet {F : Cache} {W1 W2 : Cache → Outcome} (isDir : Bool)
    (h1 : Quiet F W1) (h2 : Quiet F W2) : Quiet F (thenNext isDir W1 W2) := by
  intro c hc
  obtain ⟨ha, hb, hrun⟩ := h1 c hc
  unfold Watcher.thenNext
  rcases next_cases isDir (W1 c) W2 with ⟨heq, hne, hns⟩ | ⟨hgo, herr, hcache, _, _⟩
  · rw [heq]
    refine ⟨ha, hb, ?_⟩
    intro c2 hc2 hF2
    obtain ⟨hs, hcc, he⟩ := hrun c2 hc2 hF2
    rcases next_cases isDir (W1 c2) W2 with ⟨heq2, _, _⟩ | ⟨hgo2, _, _, _, _⟩
    · rw [heq2]
      exact ⟨hs, hcc, he⟩
    · exfalso
      rcases he with he | ⟨q, he⟩
      · rw [he] at hgo2
        rcases hgo2 with hgo2 | hgo2
        · exact hne hgo2
        · exact hns hgo2
      · rw [he] at hgo2
        simp at hgo2
  · obtain ⟨ha2, hb2, hrun2⟩ := h2 (W1 c).cache hb
    rw [hcache, herr]
    refine ⟨Cache.le_trans ha ha2, hb2, ?_⟩
    intro c2 hc2 hF2
    obtain ⟨hs, hcc, he⟩ := hrun c2 (Cache.le_trans ha2 hc2) hF2
    obtain ⟨hs2, hcc2, he2⟩ := hrun2 c2 hc2 hF2
    rcases next_cases isDir (W1 c2) W2 with ⟨heq2, hne2, hns2⟩ | ⟨_, herr3, hcache3, hsent3, _⟩
    · rw [heq2]
      refine ⟨hs, hcc, Or.inr ?_⟩
      rcases he with he | he
      · exfalso
        rw [he] at hne2 hns2
        rcases hgo with hgo | hgo
        · exact hne2 hgo
        · exact hns2 hgo
      · exact he
    · rw [herr3, hcache3, hsent3, hcc, hs]
      exact ⟨by simpa using hs2, hcc2, he2⟩

theorem removed_quiet (dirname : String) (items : Entries) :
    (∀ e ∈ items.toList, e.2.opened ≠ OpenResult.notExist) →
    ∀ c, (handleRemovedItemsFromDirectory c dirname items).sent = []
      ∧ (handleRemovedItemsFromDirectory c dirname items).cache = c
      ∧ (handleRemovedItemsFromDirectory c dirname items).err
          = (handleRemovedItemsFromDirectory emptyCache dirname items).err := by
  refine entries_induction (Q := fun items =>
    (∀ e ∈ items.toList, e.2.opened ≠ OpenResult.notExist) →
    ∀ c, (handleRemovedItemsFromDirectory c dirname items).sent = []
      ∧ (handleRemovedItemsFromDirectory c dirname items).cache = c
      ∧ (handleRemovedItemsFromDirectory c dirname items).err
          = (handleRemovedItemsFromDirectory emptyCache dirname items).err) ?_ ?_ items
  · intro _ c
    simp [handleRemovedItemsFromDirectory, Outcome.pure]
  · intro name node rest ih hno c
    have hrest : ∀ e ∈ rest.toList, e.2.opened ≠ OpenResult.notExist :=
      fun e he => hno e (by simp [Entries.toList, he])
    have hnode : node.opened ≠ OpenResult.notExist :=
      hno (name, node) (by simp [Entries.toList])
    unfold handleRemovedItemsFromDirectory
    cases ho : node.opened with
    | ok => simpa [ho] using ih hrest c
    | notExist => exact absurd ho hnode
    | permission => simp [ho]

theorem Quiet.checkDir_quiet (F : Cache) (path : String) (info : FileInfo) (items : Entries)
    (hF : F path = some info)
    (hno : ∀ e ∈ items.toList, e.2.opened ≠ OpenResult.notExist) :
    Quiet F (checkDir path info items) := by
  have hq := removed_quiet path items hno
  intro c hc
  unfold Watcher.checkDir checkForDirectoryChanges
  cases hcp : c path with
  | none =>
    simp only [handleNewDirectory]
    refine ⟨?_, ?_, ?_⟩
    · intro p v hpv
      have hne : p ≠ path := by
        intro hp
        rw [hp, hcp] at hpv
        simp at hpv
      simpa [addCacheEntry, hne] using hpv
    · intro p v hpv
      by_cases hp : p = path
      · simp only [addCacheEntry, hp, if_true, Option.some.injEq] at hpv
        rw [hp, hF, hpv]
      · simp only [addCacheEntry, hp, if_false] at hpv
        exact hc p v hpv
    · intro c2 hc2 _
      have h2 : c2 path = some info := hc2 path info (by simp [addCacheEntry])
      simp only [h2, handleExistingDirectory]
      obtain ⟨hs, hcc, he⟩ := hq c2
      refine ⟨hs, hcc, ?_⟩
      cases hcase : (handleRemovedItemsFromDirectory c2 path items).err with
      | none => exact Or.inl rfl
      | some e =>
        cases e with
        | SkipDir => exact absurd hcase (removed_err path items c2)
        | Permission q => exact Or.inr ⟨q, rfl⟩
  | some v =>
    simp only [handleExistingDirectory]
    obtain ⟨hs, hcc, he⟩ := hq c
    rw [hcc]
    refine ⟨Cache.le_refl c, hc, ?_⟩
    intro c2 hc2 _
    have h2 : c2 path = some v := hc2 path v hcp
    simp only [h2]
    obtain ⟨hs2, hcc2, he2⟩ := hq c2
    exact ⟨hs2, hcc2, Or.inl (he2.trans he.symm)⟩

theorem Quiet.fnFile_quiet (m : DirectoryMonitor) (F : Cache) (dirname path : String) (s t : Nat)
    (o : OpenResult) (nested : Cache → Outcome) (hF : F path = some ⟨false, s, t⟩) :
    Quiet F (fn m dirname path (.file s t o) nested) := by
  intro c hc
  by_cases hex : isExcluded m path = true
  · simp only [fn_excluded _ _ _ _ _ _ hex]
    exact ⟨Cache.le_refl c, hc, fun c2 _ _ => ⟨trivial, trivial, Or.inl trivial⟩⟩
  · have hex2 : isExcluded m path = false := by simpa using hex
    simp only [fn_file _ _ _ _ _ _ _ _ hex2]
    by_cases hinc : isIncluded m path = true
    · have hstable : ∀ c2 : Cache, c2 path = some ⟨false, s, t⟩ →
          (isFileChanged c2 path ⟨false, s, t⟩).1 = false :=
        fun c2 h2 => isFileChanged_settled c2 path _ h2
      cases hcp : c path with
      | none =>
        have hch : (isFileChanged c path ⟨false, s, t⟩).1 = true := by
          simp [isFileChanged, hcp]
        simp only [hinc, hch, and_self, if_true]
        refine ⟨?_, ?_, ?_⟩
        · intro p v hpv
          have hne : p ≠ path := by
            intro hp
            rw [hp, hcp] at hpv
            simp at hpv
          simpa [addCacheEntry, removeCacheEntry, hne] using hpv
        · intro p v hpv
          by_cases hp : p = path
          · simp only [addCacheEntry, hp, if_true, Option.some.injEq] at hpv
            rw [hp, hF, hpv]
          · simp only [addCacheEntry, removeCacheEntry, hp, if_false] at hpv
            exact hc p v hpv
        · intro c2 hc2 _
          have h2 : c2 path = some ⟨false, s, t⟩ := hc2 path _ (by simp [addCacheEntry])
          simp [hstable c2 h2]
      | some v =>
        have hv : v = ⟨false, s, t⟩ := by
          have := hc path v hcp
          rw [hF] at this
          exact (Option.some.inj this).symm
        rw [hv] at hcp
        simp only [hstable c hcp, Bool.false_eq_true, and_false, if_false]
        refine ⟨Cache.le_refl c, hc, ?_⟩
        intro c2 hc2 _
        have h2 : c2 path = some ⟨false, s, t⟩ := hc2 path _ hcp
        simp [hstable c2 h2]
    · have hinc2 : isIncluded m path = false := by simpa using hinc
      simp only [hinc2, Bool.false_eq_true, false_and, if_false]
      exact ⟨Cache.le_refl c, hc, fun c2 _ _ => ⟨trivial, trivial, Or.inl trivial⟩⟩

/-- Over a tree without dead links whose information is `F`, the walk only adds
entries that agree with `F`, and a walk from a cache that holds them is
silent. -/
theorem walk_quiet (m : DirectoryMonitor) (F : Cache) :
    (∀ n dirname path,
      (∀ e ∈ Node.nodes path n, F e.1 = some e.2.info ∧ e.2.opened ≠ OpenResult.notExist) →
      Quiet F (walk m dirname path n))
    ∧ (∀ es dirname dir,
      (∀ e ∈ Entries.nodes dir es,
        F e.1 = some e.2.info ∧ e.2.opened ≠ OpenResult.notExist) →
      Quiet F (walkEntries m dirname dir es)) := by
  apply tree_induction
  · intro s t o dirname path hyp
    have hw : walk m dirname path (.file s t o)
        = fn m dirname path (.file s t o) Outcome.pure := by
      funext c; rw [walk_file]
    rw [hw]
    exact Quiet.fnFile_quiet m F dirname path s t o _ (hyp _ (nodes_self _ _)).1
  · intro s t items ih dirname path hyp
    have hsub : ∀ e ∈ Entries.nodes path items,
        F e.1 = some e.2.info ∧ e.2.opened ≠ OpenResult.notExist :=
      fun e he => hyp e (by simp [Node.nodes, he])
    by_cases hex : isExcluded m path = true
    · intro c hc
      simp only [walk_dir_excluded _ _ _ _ _ _ _ hex]
      exact ⟨Cache.le_refl c, hc, fun c2 _ _ => ⟨trivial, trivial, Or.inl trivial⟩⟩
    · have hex2 : isExcluded m path = false := by simpa using hex
      rw [walk_dir_shape _ _ _ _ _ _ hex2]
      have hck : Quiet F (checkDir path ⟨true, s, t⟩ items) := by
        apply Quiet.checkDir_quiet F path _ items (hyp _ (nodes_self _ _)).1
        intro e he
        exact (hsub _ (child_mem_nodes path items e he)).2
      have hnest : Quiet F
          (if m.NoTraverse = false ∧ dirname ≠ path then
            toNil (thenDo (visiting path (checkDir path ⟨true, s, t⟩ items))
              (walkEntries m path path items))
           else Outcome.pure) := by
        split
        · exact ((hck.visiting_quiet path).thenDo_quiet (ih path path hsub)).toNil_quiet
        · exact Quiet.pure_quiet F
      exact ((hnest.thenDo_quiet hck).visiting_quiet path).thenDo_quiet (ih dirname path hsub)
  · intro dirname dir _
    have hw : walkEntries m dirname dir .nil = Outcome.pure := by
      funext c; rw [walkEntries_nil]
    rw [hw]
    exact Quiet.pure_quiet F
  · intro name node rest ihn ihr dirname dir hyp
    rw [walkEntries_cons_shape]
    apply Quiet.thenNext_quiet
    · exact ihn dirname (Join dir name) (fun e he => hyp e (by simp [Entries.nodes, he]))
    · exact ihr dirname dir (fun e he => hyp e (by simp [Entries.nodes, he]))

theorem infoAt_node (path : String) (root : Node) (hwf : root.WellFormed path) :
    ∀ e ∈ root.nodes path, root.infoAt path e.1 = some e.2.info := by
  intro e he
  unfold Node.infoAt
  cases hfind : (root.nodes path).find? (fun x => decide (x.1 = e.1)) with
  | none =>
    have := List.find?_eq_none.1 hfind e he
    simp at this
  | some e2 =>
    have h1 : e2 ∈ root.nodes path := List.mem_of_find?_eq_some hfind
    have h2 : e2.1 = e.1 := by simpa using List.find?_some hfind
    obtain ⟨p, n⟩ := e
    obtain ⟨p2, n2⟩ := e2
    simp only at h2
    subst h2
    have := node_unique hwf h1 he
    simp [this]

/-- C2, amended: for every well-formed tree that holds no entry whose target
`os.Open` does not find (no dead link) and every configuration, when
`buildInitialCache` has run over the tree from the empty cache, the next walk
of the same tree from the root sends no message and leaves the cache as it
is. -/
theorem warm_cache_walk_is_silent (m : DirectoryMonitor) (root : Node)
    (hwf : root.WellFormed m.Dir)
    (hlinks : ∀ e ∈ root.nodes m.Dir, e.2.opened ≠ OpenResult.notExist) :
    (walkDirectoryForChanges m m.Dir root (buildInitialCache m root emptyCache)).sent = []
    ∧ (walkDirectoryForChanges m m.Dir root (buildInitialCache m root emptyCache)).cache
        = buildInitialCache m root emptyCache := by
  have hyp : ∀ e ∈ Node.nodes m.Dir root,
      root.infoAt m.Dir e.1 = some e.2.info ∧ e.2.opened ≠ OpenResult.notExist :=
    fun e he => ⟨infoAt_node m.Dir root hwf e he, hlinks e he⟩
  have hq := ((walk_quiet m (root.infoAt m.Dir)).1 root m.Dir m.Dir hyp).toNil_quiet
  have hempty : Cache.le emptyCache (root.infoAt m.Dir) := by
    intro p v h
    simp [emptyCache] at h
  obtain ⟨_, hb, hrun⟩ := hq emptyCache hempty
  obtain ⟨hs, hc, _⟩ := hrun _ (Cache.le_refl _) hb
  exact ⟨hs, hc⟩

theorem warm_cache_walk_is_silent_witness :
    (walkDirectoryForChanges ⟨"root", false, 5, "*.txt", "*.bak"⟩ "root"
        (.dir 0 0 (.cons "sub" (.dir 0 0 (.cons "a.txt" (.file 3 0 .ok)
          (.cons "b.bak" (.file 1 0 .ok) (.cons "c.txt" (.file 2 0 .ok) .nil)))) .nil))
        (buildInitialCache ⟨"root", false, 5, "*.txt", "*.bak"⟩
          (.dir 0 0 (.cons "sub" (.dir 0 0 (.cons "a.txt" (.file 3 0 .ok)
            (.cons "b.bak" (.file 1 0 .ok) (.cons "c.txt" (.file 2 0 .ok) .nil)))) .nil))
          emptyCache)).sent = []
    ∧ (walkDirectoryForChanges ⟨"root", false, 5, "*.txt", "*.bak"⟩ "root"
        (.dir 0 0 (.cons "sub" (.dir 0 0 (.cons "a.txt" (.file 3 0 .ok)
          (.cons "b.bak" (.file 1 0 .ok) (.cons "c.txt" (.file 2 0 .ok) .nil)))) .nil))
        (buildInitialCache ⟨"root", false, 5, "*.txt", "*.bak"⟩
          (.dir 0 0 (.cons "sub" (.dir 0 0 (.cons "a.txt" (.file 3 0 .ok)
            (.cons "b.bak" (.file 1 0 .ok) (.cons "c.txt" (.file 2 0 .ok) .nil)))) .nil))
          emptyCache)).cache
      = buildInitialCache ⟨"root", false, 5, "*.txt", "*.bak"⟩
          (.dir 0 0 (.cons "sub" (.dir 0 0 (.cons "a.txt" (.file 3 0 .ok)
            (.cons "b.bak" (.file 1 0 .ok) (.cons "c.txt" (.file 2 0 .ok) .nil)))) .nil))
          emptyCache :=
  warm_cache_walk_is_silent ⟨"root", false, 5, "*.txt", "*.bak"⟩
    (.dir 0 0 (.cons "sub" (.dir 0 0 (.cons "a.txt" (.file 3 0 .ok)
      (.cons "b.bak" (.file 1 0 .ok) (.cons "c.txt" (.file 2 0 .ok) .nil)))) .nil))
    (by unfold Node.WellFormed; decide)
    (by
      intro e he
      simp only [Node.nodes, Entries.nodes, List.mem_cons, List.mem_append,
        List.mem_singleton, List.not_mem_nil, List.append_nil, or_false] at he
      rcases he with he | he | he | he | he <;> rw [he] <;> simp [Node.opened])

end Watcher
